import Mathlib
set_option maxHeartbeats 1000000
/-!
Verification development for the process-data plane of the EtherCAT master:
the domain packing algorithm (master/domain.c, ec_domain_finish), the cyclic
queue/process operations (ecrt_domain_queue, ecrt_domain_process), and the
per-slave request state machine (master/fsm_slave.c).

The definitions are a shallow embedding of the C sources.  Functions of the
repository that are only declared in the sources at hand
(ec_datagram_pair_init, ec_datagram_pair_process, ec_datagram_pair_data_changed)
are modelled from the specification and marked as such in their doc comments.
-/

/-! ## Embedding: FMMU configurations and the packing loop of ec_domain_finish -/
/-- Direction of an FMMU configuration (EC_DIR_OUTPUT / EC_DIR_INPUT). -/
inductive EcDir where
  | output
  | input
deriving DecidableEq
/-- An FMMU configuration: slave-config handle (identified by a number),
direction, data size and logical start address (domain.c uses only these
fields of ec_fmmu_config_t). -/
structure FmmuConfig where
  sc : Nat
  dir : EcDir
  data_size : Nat
  logical_start_address : Nat
deriving DecidableEq
/-- Modelled from the spec: EC_MAX_DATA_SIZE is the wire's maximum datagram
payload, a constant of the protocol (globals.h is not among the sources):
1500 bytes of Ethernet data minus 2 bytes frame header, 10 bytes datagram
header and 2 bytes working-counter footer. -/
def EC_MAX_DATA_SIZE : Nat := 1486
/-- Embedding of shall_count (domain.c): returns true iff no FMMU in the
current datagram's window (the FMMUs from the datagram's first FMMU up to,
and excluding, the current one) shares both slave config and direction with
the current FMMU. -/
def shall_count (cur : FmmuConfig) (window : List FmmuConfig) : Bool :=
  window.all fun f => !(decide (f.sc = cur.sc ∧ f.dir = cur.dir))
/-- Modelled from the spec: ec_datagram_pair_init (datagram_pair.c is not
among the sources) derives the pair's expected working counter from the used
counts per the table of section 4.2: LRD contributes used[in], LWR
contributes used[out], LRW contributes 3*used[out] + used[in]. -/
def expectedWcOfUsed (usedOut usedIn : Nat) : Nat :=
  if 0 < usedOut ∧ 0 < usedIn then 3 * usedOut + usedIn
  else if 0 < usedOut then usedOut
  else usedIn
/-- Modelled from the spec: the command type of a datagram pair, derived from
the used counts per the table of section 4.2. -/
inductive EcCommand where
  | lrd
  | lwr
  | lrw
deriving DecidableEq
/-- Modelled from the spec: command selection of the section 4.2 table. -/
def commandOfUsed (usedOut usedIn : Nat) : EcCommand :=
  if 0 < usedOut ∧ 0 < usedIn then EcCommand.lrw
  else if 0 < usedOut then EcCommand.lwr
  else EcCommand.lrd
/-- The packing description of one emitted datagram pair: logical address,
payload size, the used counts accumulated for it, the expected working
counter derived from them, and (as specification-level ghost data) the list
of FMMUs whose shall_count test fired while these used counts were
accumulated. -/
structure DatagramPairSpec where
  logical_offset : Nat
  data_size : Nat
  usedOut : Nat
  usedIn : Nat
  expected_working_counter : Nat
  counted : List FmmuConfig
deriving DecidableEq
/-- The running state of the packing loop of ec_domain_finish: current
datagram offset and size, the used counters, the window of FMMUs since the
current datagram's first FMMU, the counted FMMUs (ghost), the pairs emitted
so far, the accumulated expected working counter of the domain, and the
FMMUs with corrected logical addresses. -/
structure FinishState where
  datagram_offset : Nat
  datagram_size : Nat
  usedOut : Nat
  usedIn : Nat
  window : List FmmuConfig
  counted : List FmmuConfig
  pairs : List DatagramPairSpec
  ewc : Nat
  fmmus_out : List FmmuConfig
deriving DecidableEq
/-- Emission of one datagram pair (ec_domain_add_datagram_pair): the pair is
appended and its expected working counter is added to the domain's. -/
def emitPair (base : Nat) (st : FinishState) : FinishState :=
  let p : DatagramPairSpec :=
    { logical_offset := base + st.datagram_offset
      data_size := st.datagram_size
      usedOut := st.usedOut
      usedIn := st.usedIn
      expected_working_counter := expectedWcOfUsed st.usedOut st.usedIn
      counted := st.counted }
  { st with pairs := st.pairs ++ [p]
            ewc := st.ewc + expectedWcOfUsed st.usedOut st.usedIn }
/-- One iteration of the FMMU loop of ec_domain_finish: correct the logical
address, run shall_count and bump the used counter of the FMMU's direction,
then, if the FMMU's data do not fit into the current datagram, emit a pair
for the accumulated range and start a new datagram at this FMMU; finally add
the FMMU's size to the current datagram. -/
def finishStep (maxData base : Nat) (st : FinishState) (f : FmmuConfig) : FinishState :=
  let f' := { f with logical_start_address := f.logical_start_address + base }
  let doCount := shall_count f' st.window
  let uo := if doCount && decide (f'.dir = EcDir.output) then st.usedOut + 1 else st.usedOut
  let ui := if doCount && decide (f'.dir = EcDir.input) then st.usedIn + 1 else st.usedIn
  let cnt := if doCount then st.counted ++ [f'] else st.counted
  let st1 := { st with usedOut := uo, usedIn := ui, counted := cnt
                       window := st.window ++ [f']
                       fmmus_out := st.fmmus_out ++ [f'] }
  if maxData < st.datagram_size + f'.data_size then
    let st2 := emitPair base st1
    { st2 with datagram_offset := st.datagram_offset + st.datagram_size
               datagram_size := f'.data_size
               usedOut := 0, usedIn := 0
               window := [f'], counted := [] }
  else
    { st1 with datagram_size := st.datagram_size + f'.data_size }
/-- Initial packing state of ec_domain_finish. -/
def finishInit : FinishState :=
  { datagram_offset := 0, datagram_size := 0, usedOut := 0, usedIn := 0
    window := [], counted := [], pairs := [], ewc := 0, fmmus_out := [] }
/-- The packing loop of ec_domain_finish: fold the step over the FMMU list
and emit a final pair if data are left. -/
def ec_domain_finish_pack (maxData base : Nat) (fmmus : List FmmuConfig) : FinishState :=
  let st := fmmus.foldl (finishStep maxData base) finishInit
  if 0 < st.datagram_size then emitPair base st else st

/-! ## Embedding: the domain object and ec_domain_finish -/
/-- Origin of the domain's process-data memory. -/
inductive EcOrigin where
  | internal
  | external
deriving DecidableEq
/-- The domain fields used by domain.c: FMMU config list, total data size,
memory origin, logical base address, datagram pairs, expected working
counter, and a ghost flag recording whether the internal process image was
allocated. -/
structure EcDomain where
  fmmu_configs : List FmmuConfig
  data_size : Nat
  data_origin : EcOrigin
  logical_base_address : Nat
  datagram_pairs : List DatagramPairSpec
  expected_working_counter : Nat
  allocated : Bool
deriving DecidableEq
/-- ec_domain_init: fresh domain. -/
def ec_domain_init : EcDomain :=
  { fmmu_configs := [], data_size := 0, data_origin := EcOrigin.internal
    logical_base_address := 0, datagram_pairs := []
    expected_working_counter := 0, allocated := false }
/-- ec_domain_add_fmmu_config: append the FMMU to the domain's list and add
its size to the domain's data size. -/
def ec_domain_add_fmmu_config (d : EcDomain) (f : FmmuConfig) : EcDomain :=
  { d with data_size := d.data_size + f.data_size
           fmmu_configs := d.fmmu_configs ++ [f] }
/-- A domain with the given FMMU configurations registered in order. -/
def registerAll (fmmus : List FmmuConfig) : EcDomain :=
  fmmus.foldl ec_domain_add_fmmu_config ec_domain_init
/-- Error number for a failed allocation. -/
def ENOMEM : Int := 12
/-- Embedding of ec_domain_finish: set the base address, allocate the image
when the data size is positive and the origin internal (allocOk models the
success of kmalloc), then run the packing loop.  The allocated ghost flag
records whether an internal image allocation took place. -/
def ec_domain_finish (allocOk : Bool) (d : EcDomain) (base : Nat) :
    Except Int EcDomain :=
  let d1 := { d with logical_base_address := base }
  if 0 < d1.data_size ∧ d1.data_origin = EcOrigin.internal ∧ allocOk = false then
    Except.error (-ENOMEM)
  else
    let st := ec_domain_finish_pack EC_MAX_DATA_SIZE base d1.fmmu_configs
    Except.ok { d1 with
      fmmu_configs := st.fmmus_out
      datagram_pairs := d1.datagram_pairs ++ st.pairs
      expected_working_counter := d1.expected_working_counter + st.ewc
      allocated := decide (0 < d1.data_size ∧ d1.data_origin = EcOrigin.internal) }

/-! ## Specification predicates for the packing claims -/
/-- Invariant of the packing loop: every already-emitted first pair has a
positive used-count sum; before any emission, either nothing has been
processed yet (empty window, zero size) or the running used counters are
already positive. -/
def firstPairInv (st : FinishState) : Prop :=
  (∀ p, st.pairs.head? = some p → 0 < p.usedOut + p.usedIn) ∧
  (st.pairs = [] → (st.window = [] ∧ st.datagram_size = 0) ∨ 0 < st.usedOut + st.usedIn)
/-- No two FMMUs of the list share both slave config and direction. -/
def noDupScDir (l : List FmmuConfig) : Prop :=
  l.Pairwise fun f g => ¬(f.sc = g.sc ∧ f.dir = g.dir)
/-- Number of FMMUs of the list with the given direction. -/
def countDir (l : List FmmuConfig) (d : EcDir) : Nat :=
  (l.filter fun f => decide (f.dir = d)).length
/-- The working-counter bookkeeping of one emitted pair is consistent: the
expected WC follows the section 4.2 table applied to the used counts, the
used counts are exactly the number of counted FMMUs per direction, and no
slave-config/direction combination occurs twice among the counted FMMUs. -/
def pairCountsOk (p : DatagramPairSpec) : Prop :=
  p.expected_working_counter = expectedWcOfUsed p.usedOut p.usedIn ∧
  p.usedOut = countDir p.counted EcDir.output ∧
  p.usedIn = countDir p.counted EcDir.input ∧
  noDupScDir p.counted
/-- Invariant of the packing loop for C1. -/
def packInv (st : FinishState) : Prop :=
  st.ewc = (st.pairs.map fun p => p.expected_working_counter).sum ∧
  (∀ p ∈ st.pairs, pairCountsOk p) ∧
  st.usedOut = countDir st.counted EcDir.output ∧
  st.usedIn = countDir st.counted EcDir.input ∧
  noDupScDir st.counted ∧
  (∀ g ∈ st.counted, g ∈ st.window)

/-! ## Embedding: run-time datagram pairs, ecrt_domain_queue and ecrt_domain_process -/
/-- A datagram pair at run time: the shared logical address and payload size
of its two sibling datagrams, the payload windows of the main and backup
datagrams, the send-staging buffer, the pair's expected working counter,
and the aggregate working counter the wire stamped for this cycle (the
value ec_datagram_pair_process reports). -/
structure DgPair where
  address : Nat
  size : Nat
  mainData : List Nat
  backupData : List Nat
  sendBuffer : List Nat
  expected_working_counter : Nat
  aggWc : Nat
deriving DecidableEq
/-- The window of len bytes at offset off of a buffer. -/
def sliceL (l : List Nat) (off len : Nat) : List Nat :=
  (l.drop off).take len
/-- memcpy of len bytes at offset off from src into dst (both are whole
windows of the same logical range). -/
def memcpyAt (dst src : List Nat) (off len : Nat) : List Nat :=
  dst.take off ++ sliceL src off len ++ dst.drop (off + len)
/-- memcpy of the first n bytes of src over dst. -/
def memcpyFull (dst src : List Nat) (n : Nat) : List Nat :=
  src.take n ++ dst.drop n
/-- Modelled from the spec: ec_datagram_pair_data_changed (not among the
sources) reports whether the given device's payload window differs from the
staged send copy over the FMMU's slice. -/
def ec_datagram_pair_data_changed (p : DgPair) (off len : Nat)
    (backup : Bool) : Bool :=
  let dev := if backup then p.backupData else p.mainData
  decide (sliceL dev off len ≠ sliceL p.sendBuffer off len)
/-- Modelled from the spec: ec_datagram_pair_process (not among the sources)
returns the pair's aggregate working counter for this cycle, stamped by the
wire before process() runs. -/
def ec_datagram_pair_process (p : DgPair) : Nat :=
  p.aggWc
/-- The per-input-FMMU merge of ecrt_domain_process (domain.c lines
492-506): if the main window changed versus the staged copy, keep main;
otherwise, if the backup window changed or the pair's working counter
equals its expected working counter, copy the backup window over the main
window; otherwise leave main untouched. -/
def mergeInputFmmu (p : DgPair) (off len wcNow : Nat) : DgPair :=
  if ec_datagram_pair_data_changed p off len false then p
  else if ec_datagram_pair_data_changed p off len true
      || decide (wcNow = p.expected_working_counter) then
    { p with mainData := memcpyAt p.mainData p.backupData off len }
  else p
/-- The three-case merge policy, written from the words of section 4.4 of
the spec, as a function of the three windows and the working counters; used
to check mergeInputFmmu against the spec text. -/
def specMergeWindow (mainW backupW stagedW : List Nat) (wc ewc : Nat) :
    List Nat :=
  if mainW ≠ stagedW then mainW
  else if backupW ≠ stagedW ∨ wc = ewc then backupW
  else mainW
/-- The domain fields used by the cyclic operations. -/
structure DomainRt where
  fmmu_configs : List FmmuConfig
  pairs : List DgPair
  working_counter : Nat
  expected_working_counter : Nat
  working_counter_changes : Nat
  notify_jiffies : Nat
deriving DecidableEq
/-- ecrt_domain_queue: for every pair, copy the main payload into the send
buffer and into the backup payload, then hand both datagrams to the master
(recorded as the list of queued (address, device index) pairs). -/
def ecrt_domain_queue (d : DomainRt) : DomainRt × List (Nat × Nat) :=
  ({ d with pairs := d.pairs.map fun p =>
      { p with sendBuffer := memcpyFull p.sendBuffer p.mainData p.size
               backupData := memcpyFull p.backupData p.mainData p.size } },
   d.pairs.flatMap fun p => [(p.address, 0), (p.address, 1)])
/-- The cursor state of the FMMU loop of ecrt_domain_process: the pairs
already passed, the current pair, the pairs still ahead, the running
working-counter sum, the working counter of the last processed pair, and a
flag recording that the walk ran off the end of the pair list (undefined
behavior in the C source). -/
structure ProcCursor where
  done : List DgPair
  cur : DgPair
  rest : List DgPair
  sum : Nat
  pairWc : Nat
  overrun : Bool
deriving DecidableEq
/-- The while loop of ecrt_domain_process that advances the datagram-pair
cursor until the FMMU's offset lies inside the current pair, processing
each newly entered pair and adding its working counter to the sum. -/
def processAdvance (fstart : Nat) (done : List DgPair) (cur : DgPair)
    (sum pairWc : Nat) :
    List DgPair → List DgPair × DgPair × List DgPair × Nat × Nat × Bool
  | [] =>
    if fstart - cur.address < cur.size then
      (done, cur, [], sum, pairWc, false)
    else
      (done, cur, [], sum, pairWc, true)
  | p :: rest' =>
    if fstart - cur.address < cur.size then
      (done, cur, p :: rest', sum, pairWc, false)
    else
      processAdvance fstart (done ++ [cur]) p
        (sum + ec_datagram_pair_process p) (ec_datagram_pair_process p) rest'
/-- One iteration of the FMMU loop of ecrt_domain_process: non-input FMMUs
are skipped; for an input FMMU the cursor is advanced to the pair containing
the FMMU's window and the merge is applied to that window. -/
def processFmmu (st : ProcCursor) (f : FmmuConfig) : ProcCursor :=
  if f.dir ≠ EcDir.input then st
  else if st.overrun then st
  else
    match processAdvance f.logical_start_address st.done st.cur st.sum
        st.pairWc st.rest with
    | (done, cur, rest, sum, pairWc, true) =>
        { done := done, cur := cur, rest := rest, sum := sum,
          pairWc := pairWc, overrun := true }
    | (done, cur, rest, sum, pairWc, false) =>
        { done := done
          cur := mergeInputFmmu cur (f.logical_start_address - cur.address)
            f.data_size pairWc
          rest := rest, sum := sum, pairWc := pairWc, overrun := false }
/-- Result of ecrt_domain_process: the updated domain, whether the pre-loop
read the uninitialised fmmu pointer, and whether the pair-list walk ran off
the list (both undefined behavior in the C source). -/
structure ProcResult where
  domain : DomainRt
  uninit_fmmu_read : Bool
  list_overrun : Bool
deriving DecidableEq
/-- ecrt_domain_process up to the working-counter comparison (domain.c lines
432-512): process the first pair (the pre-loop computes a datagram offset
from the still-uninitialised fmmu variable, recorded in uninit_fmmu_read),
walk the FMMU list merging input windows and summing the working counters of
all pairs entered (the running sum is a uint16_t in the source, so it is
taken modulo 2^16), then compare the sum with the previous working counter,
bumping the change counter on a difference. -/
def ec_domain_process_core (d : DomainRt) : ProcResult :=
  match d.pairs with
  | [] =>
      let sum := 0
      let overrun := d.fmmu_configs.any fun f => decide (f.dir = EcDir.input)
      if sum ≠ d.working_counter then
        { domain := { d with working_counter := sum
                             working_counter_changes := d.working_counter_changes + 1 }
          uninit_fmmu_read := false, list_overrun := overrun }
      else
        { domain := d, uninit_fmmu_read := false, list_overrun := overrun }
  | p0 :: rest =>
      let w0 := ec_datagram_pair_process p0
      let st0 : ProcCursor :=
        { done := [], cur := p0, rest := rest, sum := w0, pairWc := w0,
          overrun := false }
      let st := d.fmmu_configs.foldl processFmmu st0
      let d1 := { d with pairs := st.done ++ st.cur :: st.rest }
      if st.sum % 65536 ≠ d.working_counter then
        { domain := { d1 with working_counter := st.sum % 65536
                              working_counter_changes := d.working_counter_changes + 1 }
          uninit_fmmu_read := true, list_overrun := st.overrun }
      else
        { domain := d1, uninit_fmmu_read := true, list_overrun := st.overrun }
/-- Full ecrt_domain_process: the core followed by the once-per-second
notification block, which logs and zeroes the change counter when changes
are pending and more than hz jiffies have passed since the last report. -/
def ecrt_domain_process (d : DomainRt) (jiffies hz : Nat) : ProcResult :=
  let r := ec_domain_process_core d
  if r.domain.working_counter_changes ≠ 0 ∧
      hz < jiffies - r.domain.notify_jiffies then
    { r with domain := { r.domain with notify_jiffies := jiffies
                                       working_counter_changes := 0 } }
  else
    r
/-- ecrt_domain_state: the derived working-counter state of section 4.4. -/
inductive EcWcState where
  | zero
  | incomplete
  | complete
deriving DecidableEq
/-- ecrt_domain_state (domain.c lines 560-573). -/
def ecrt_domain_state (d : DomainRt) : Nat × EcWcState :=
  (d.working_counter,
    if d.working_counter ≠ 0 then
      if d.working_counter = d.expected_working_counter then EcWcState.complete
      else EcWcState.incomplete
    else EcWcState.zero)

/-! ## Specification functions and predicates for the working-counter claim -/
/-- Index of the pair whose window contains the address x, for a contiguous
pair list (mirrors the cursor-advance condition of process()). -/
def pairIdxOf : List DgPair → Nat → Nat
  | [], _ => 0
  | p :: r, x => if x - p.address < p.size then 0 else pairIdxOf r x + 1
/-- Total payload size of a pair list. -/
def pairsTotalSize (l : List DgPair) : Nat :=
  (l.map fun p => p.size).sum
/-- The pair list is laid out contiguously from address a. -/
def contigPairs : Nat → List DgPair → Bool
  | _, [] => true
  | a, p :: r => decide (p.address = a) && contigPairs (a + p.size) r
/-- The input-direction FMMUs of a config list, in order. -/
def inputFmmus (fs : List FmmuConfig) : List FmmuConfig :=
  fs.filter fun f => decide (f.dir = EcDir.input)
/-- Index of the pair containing the last input FMMU's window, or c when
there is no input FMMU. -/
def lastInputPairIdx (l : List DgPair) (fs : List FmmuConfig) (c : Nat) : Nat :=
  match (inputFmmus fs).getLast? with
  | none => c
  | some f => pairIdxOf l f.logical_start_address
/-- The sum of aggregate working counters over the pairs process() visits:
the first pair and every pair up to the one containing the last
input-direction FMMU (zero when there are no pairs). -/
def visitedWcSum (d : DomainRt) : Nat :=
  match d.pairs with
  | [] => 0
  | _ :: _ =>
      ((d.pairs.take (lastInputPairIdx d.pairs d.fmmu_configs 0 + 1)).map
        fun p => p.aggWc).sum
/-- The merge-relevant shape of a pair: address, size and aggregate WC. -/
def pairShape (p : DgPair) : Nat × Nat × Nat :=
  (p.address, p.size, p.aggWc)
/-- The shapes of a pair list. -/
def shapes (l : List DgPair) : List (Nat × Nat × Nat) :=
  l.map pairShape
/-- A concrete domain with two pairs whose second pair holds only an
output-direction FMMU: process() never reaches the second pair. -/
def trailingOutputDomain : DomainRt :=
  { fmmu_configs :=
      [{ sc := 0, dir := EcDir.output, data_size := 4, logical_start_address := 0 },
       { sc := 1, dir := EcDir.output, data_size := 4, logical_start_address := 4 }]
    pairs :=
      [{ address := 0, size := 4, mainData := [0, 0, 0, 0],
         backupData := [0, 0, 0, 0], sendBuffer := [0, 0, 0, 0],
         expected_working_counter := 1, aggWc := 1 },
       { address := 4, size := 4, mainData := [0, 0, 0, 0],
         backupData := [0, 0, 0, 0], sendBuffer := [0, 0, 0, 0],
         expected_working_counter := 1, aggWc := 1 }]
    working_counter := 0, expected_working_counter := 2
    working_counter_changes := 0, notify_jiffies := 0 }
/-- A concrete domain whose second pair contains the only input FMMU. -/
def inputTailDomain : DomainRt :=
  { fmmu_configs :=
      [{ sc := 0, dir := EcDir.output, data_size := 4, logical_start_address := 0 },
       { sc := 1, dir := EcDir.input, data_size := 4, logical_start_address := 4 }]
    pairs :=
      [{ address := 0, size := 4, mainData := [0, 0, 0, 0],
         backupData := [0, 0, 0, 0], sendBuffer := [0, 0, 0, 0],
         expected_working_counter := 1, aggWc := 1 },
       { address := 4, size := 4, mainData := [0, 0, 0, 0],
         backupData := [0, 0, 0, 0], sendBuffer := [0, 0, 0, 0],
         expected_working_counter := 1, aggWc := 2 }]
    working_counter := 0, expected_working_counter := 5
    working_counter_changes := 0, notify_jiffies := 0 }

/-! ## Embedding: the per-slave request state machine (fsm_slave.c) -/
/-- The states of the slave request FSM. -/
inductive SlaveFsmState where
  | idle
  | ready
  | sdo_request
  | reg_request
  | foe_request
  | soe_request
deriving DecidableEq
/-- Internal request states (EC_INT_REQUEST_*). -/
inductive ReqState where
  | queued
  | busy
  | success
  | failure
deriving DecidableEq
/-- The per-slave wait queues a wake-up can address. -/
inductive QueueId where
  | sdoQueue
  | regQueue
  | foeQueue
  | soeQueue
deriving DecidableEq
/-- Datagram states (EC_DATAGRAM_*). -/
inductive DatagramState where
  | init
  | queued
  | sent
  | received
  | timed_out
  | error
deriving DecidableEq
/-- An SDO request (identified by a number, carrying its state). -/
structure SdoReq where
  id : Nat
  rstate : ReqState
deriving DecidableEq
/-- An FoE request. -/
structure FoeReq where
  id : Nat
  rstate : ReqState
deriving DecidableEq
/-- An SoE request (the req field of ec_master_soe_request_t). -/
structure SoeReq where
  id : Nat
  rstate : ReqState
deriving DecidableEq
/-- A register request: direction, register address, transfer size, data. -/
structure RegReq where
  id : Nat
  rstate : ReqState
  dir : EcDir
  address : Nat
  transfer_size : Nat
  rdata : List Nat
deriving DecidableEq
/-- AL-state constants (bit masks, globals.h values). -/
def EC_SLAVE_STATE_INIT : Nat := 1
/-- The acknowledge/error bit of the AL state. -/
def EC_SLAVE_STATE_ACK_ERR : Nat := 16
/-- The slave fields used by fsm_slave.c: AL state, addresses, the optional
slave config with its internal register request list, and the four external
request queues. -/
structure EcSlave where
  current_state : Nat
  station_address : Nat
  device_index : Nat
  config_reg_requests : Option (List RegReq)
  sdo_requests : List SdoReq
  reg_requests : List RegReq
  foe_requests : List FoeReq
  soe_requests : List SoeReq
deriving DecidableEq
/-- The slave's AL state carries the ACK_ERR flag. -/
def slaveAckErr (s : EcSlave) : Bool :=
  decide (s.current_state &&& EC_SLAVE_STATE_ACK_ERR ≠ 0)
/-- The operation last built into the FSM's datagram slot (fprd or fpwr with
station address, register address and size). -/
structure RegOp where
  isRead : Bool
  station : Nat
  address : Nat
  size : Nat
deriving DecidableEq
/-- The FSM's borrowed datagram slot. -/
structure FsmDatagram where
  dstate : DatagramState
  working_counter : Nat
  data : List Nat
  op : Option RegOp
deriving DecidableEq
/-- The slave request FSM proper: current state and the four request-kind
references. -/
structure EcFsmSlave where
  state : SlaveFsmState
  sdo_request : Option SdoReq
  reg_request : Option RegReq
  foe_request : Option FoeReq
  soe_request : Option SoeReq
deriving DecidableEq
/-- The world one FSM step acts on: the FSM, the slave, the datagram slot,
and the observable effects accumulated so far (wake-ups issued, final
request states written, number of datagram queuings). -/
structure FsmWorld where
  fsm : EcFsmSlave
  slave : EcSlave
  datagram : FsmDatagram
  wakes : List QueueId
  req_results : List (QueueId × Nat × ReqState)
  queued_count : Nat
deriving DecidableEq
/-- Environment of one step: the sub-state-machine outcomes (exec still
pending, success) the black-box protocol FSMs report this cycle. -/
structure FsmEnv where
  coe_exec_pending : Bool
  coe_success : Bool
  foe_exec_pending : Bool
  foe_success : Bool
  soe_exec_pending : Bool
  soe_success : Bool
deriving DecidableEq
/-- ec_fsm_slave_init: state idle, no request references, empty datagram. -/
def ec_fsm_slave_init (slave : EcSlave) : FsmWorld :=
  { fsm := { state := SlaveFsmState.idle, sdo_request := none,
             reg_request := none, foe_request := none, soe_request := none }
    slave := slave
    datagram := { dstate := DatagramState.init, working_counter := 0,
                  data := [], op := none }
    wakes := [], req_results := [], queued_count := 0 }
/-- ec_fsm_slave_ready: lift idle to ready; otherwise do nothing. -/
def ec_fsm_slave_ready (w : FsmWorld) : FsmWorld :=
  if w.fsm.state = SlaveFsmState.idle then
    { w with fsm := { w.fsm with state := SlaveFsmState.ready } }
  else
    w
/-- Update the state of the register request with the given id inside the
slave config's internal list, when present (writes through the aliased
pointer of the C source). -/
def updateCfgReg (s : EcSlave) (id : Nat) (st : ReqState) : EcSlave :=
  { s with config_reg_requests := s.config_reg_requests.map fun l =>
      l.map fun r => if r.id = id then { r with rstate := st } else r }
/-- ec_fsm_slave_action_process_sdo: dequeue the first external SDO request;
abort with FAILURE (waking the SDO queue and going idle) on ACK_ERR or INIT;
otherwise mark it busy, claim it, start the CoE transfer and queue the
datagram.  Returns the new world and whether a request was started. -/
def ec_fsm_slave_action_process_sdo (w : FsmWorld) : FsmWorld × Bool :=
  match w.slave.sdo_requests with
  | [] => (w, false)
  | r :: rest =>
      let w1 := { w with slave := { w.slave with sdo_requests := rest } }
      if slaveAckErr w1.slave then
        ({ w1 with
            req_results := w1.req_results ++
              [(QueueId.sdoQueue, r.id, ReqState.failure)]
            wakes := w1.wakes ++ [QueueId.sdoQueue]
            fsm := { w1.fsm with sdo_request := none
                                 state := SlaveFsmState.idle } }, false)
      else if w1.slave.current_state = EC_SLAVE_STATE_INIT then
        ({ w1 with
            req_results := w1.req_results ++
              [(QueueId.sdoQueue, r.id, ReqState.failure)]
            wakes := w1.wakes ++ [QueueId.sdoQueue]
            fsm := { w1.fsm with sdo_request := none
                                 state := SlaveFsmState.idle } }, false)
      else
        ({ w1 with
            fsm := { w1.fsm with
              sdo_request := some { r with rstate := ReqState.busy }
              state := SlaveFsmState.sdo_request }
            queued_count := w1.queued_count + 1 }, true)
/-- The request pick of ec_fsm_slave_action_process_reg: the first queued
internal register request of the slave config when one exists, else the
first external request, dequeued from the slave's list. -/
def regPick (w0 : FsmWorld) : Option RegReq × FsmWorld :=
  match (match w0.slave.config_reg_requests with
         | none => none
         | some l => l.find? fun r => decide (r.rstate = ReqState.queued)) with
  | some r => (some r, w0)
  | none =>
      match w0.slave.reg_requests with
      | [] => (none, w0)
      | r :: rest =>
          (some r, { w0 with slave := { w0.slave with reg_requests := rest } })
/-- ec_fsm_slave_action_process_reg: clear the reference, pick a request via
regPick; abort with FAILURE (waking the register queue and going idle,
without clearing the reference) on ACK_ERR; otherwise mark it busy, build
the fprd/fpwr datagram and queue it. -/
def ec_fsm_slave_action_process_reg (w : FsmWorld) : FsmWorld × Bool :=
  let w0 := { w with fsm := { w.fsm with reg_request := none } }
  match regPick w0 with
  | (none, w1) => (w1, false)
  | (some r, w1) =>
      if slaveAckErr w1.slave then
        ({ w1 with
            slave := updateCfgReg w1.slave r.id ReqState.failure
            req_results := w1.req_results ++
              [(QueueId.regQueue, r.id, ReqState.failure)]
            wakes := w1.wakes ++ [QueueId.regQueue]
            fsm := { w1.fsm with
              reg_request := some { r with rstate := ReqState.failure }
              state := SlaveFsmState.idle } }, true)
      else
        let dg : FsmDatagram :=
          if r.dir = EcDir.input then
            { dstate := DatagramState.init, working_counter := 0
              data := List.replicate r.transfer_size 0
              op := some { isRead := true, station := w1.slave.station_address,
                           address := r.address, size := r.transfer_size } }
          else
            { dstate := DatagramState.init, working_counter := 0
              data := r.rdata.take r.transfer_size
              op := some { isRead := false, station := w1.slave.station_address,
                           address := r.address, size := r.transfer_size } }
        ({ w1 with
            slave := updateCfgReg w1.slave r.id ReqState.busy
            fsm := { w1.fsm with
              reg_request := some { r with rstate := ReqState.busy }
              state := SlaveFsmState.reg_request }
            datagram := dg
            queued_count := w1.queued_count + 1 }, true)
/-- ec_fsm_slave_action_process_foe: dequeue the first FoE request; on
ACK_ERR abort with FAILURE — the source wakes the slave's SDO queue (not the
FoE queue) and leaves the FSM state unchanged; otherwise mark busy, claim,
start the FoE transfer and queue the datagram. -/
def ec_fsm_slave_action_process_foe (w : FsmWorld) : FsmWorld × Bool :=
  match w.slave.foe_requests with
  | [] => (w, false)
  | r :: rest =>
      let w1 := { w with slave := { w.slave with foe_requests := rest } }
      if slaveAckErr w1.slave then
        ({ w1 with
            req_results := w1.req_results ++
              [(QueueId.foeQueue, r.id, ReqState.failure)]
            wakes := w1.wakes ++ [QueueId.sdoQueue] }, false)
      else
        ({ w1 with
            fsm := { w1.fsm with
              foe_request := some { r with rstate := ReqState.busy }
              state := SlaveFsmState.foe_request }
            queued_count := w1.queued_count + 1 }, true)
/-- ec_fsm_slave_action_process_soe: dequeue the first SoE request; abort
with FAILURE (waking the SoE queue and going idle) on ACK_ERR or INIT;
otherwise mark busy, claim, start the SoE transfer and queue the
datagram. -/
def ec_fsm_slave_action_process_soe (w : FsmWorld) : FsmWorld × Bool :=
  match w.slave.soe_requests with
  | [] => (w, false)
  | r :: rest =>
      let w1 := { w with slave := { w.slave with soe_requests := rest } }
      if slaveAckErr w1.slave then
        ({ w1 with
            req_results := w1.req_results ++
              [(QueueId.soeQueue, r.id, ReqState.failure)]
            wakes := w1.wakes ++ [QueueId.soeQueue]
            fsm := { w1.fsm with state := SlaveFsmState.idle } }, false)
      else if w1.slave.current_state = EC_SLAVE_STATE_INIT then
        ({ w1 with
            req_results := w1.req_results ++
              [(QueueId.soeQueue, r.id, ReqState.failure)]
            wakes := w1.wakes ++ [QueueId.soeQueue]
            fsm := { w1.fsm with state := SlaveFsmState.idle } }, false)
      else
        ({ w1 with
            fsm := { w1.fsm with
              soe_request := some { r with rstate := ReqState.busy }
              state := SlaveFsmState.soe_request }
            queued_count := w1.queued_count + 1 }, true)
/-- ec_fsm_slave_state_ready: try SDO, register, FoE and SoE dequeueing in
strict priority order; stop at the first kind that starts a request. -/
def ec_fsm_slave_state_ready (w : FsmWorld) : FsmWorld :=
  match ec_fsm_slave_action_process_sdo w with
  | (w1, true) => w1
  | (w1, false) =>
      match ec_fsm_slave_action_process_reg w1 with
      | (w2, true) => w2
      | (w2, false) =>
          match ec_fsm_slave_action_process_foe w2 with
          | (w3, true) => w3
          | (w3, false) => (ec_fsm_slave_action_process_soe w3).1
/-- ec_fsm_slave_state_sdo_request: step the CoE sub-FSM; while it reports
more work, requeue the datagram and stay; on completion mark the request
SUCCESS or FAILURE, wake the SDO queue, drop the reference and return to
ready. -/
def ec_fsm_slave_state_sdo_request (w : FsmWorld) (env : FsmEnv) : FsmWorld :=
  match w.fsm.sdo_request with
  | none => w
  | some r =>
      if env.coe_exec_pending then
        { w with queued_count := w.queued_count + 1 }
      else if env.coe_success then
        { w with
            req_results := w.req_results ++
              [(QueueId.sdoQueue, r.id, ReqState.success)]
            wakes := w.wakes ++ [QueueId.sdoQueue]
            fsm := { w.fsm with sdo_request := none
                                state := SlaveFsmState.ready } }
      else
        { w with
            req_results := w.req_results ++
              [(QueueId.sdoQueue, r.id, ReqState.failure)]
            wakes := w.wakes ++ [QueueId.sdoQueue]
            fsm := { w.fsm with sdo_request := none
                                state := SlaveFsmState.ready } }
/-- ec_fsm_slave_state_reg_request: a cleared reference silently returns to
ready; a datagram that did not come back as received fails the request;
otherwise the request succeeds exactly when the working counter is 1, an
input request copying the received bytes back.  In every terminating case
the FSM returns to ready and the reference is NOT cleared. -/
def ec_fsm_slave_state_reg_request (w : FsmWorld) : FsmWorld :=
  match w.fsm.reg_request with
  | none => { w with fsm := { w.fsm with state := SlaveFsmState.ready } }
  | some r =>
      if w.datagram.dstate ≠ DatagramState.received then
        { w with
            slave := updateCfgReg w.slave r.id ReqState.failure
            req_results := w.req_results ++
              [(QueueId.regQueue, r.id, ReqState.failure)]
            wakes := w.wakes ++ [QueueId.regQueue]
            fsm := { w.fsm with
              reg_request := some { r with rstate := ReqState.failure }
              state := SlaveFsmState.ready } }
      else if w.datagram.working_counter = 1 then
        let r' : RegReq :=
          if r.dir = EcDir.input then
            { r with rstate := ReqState.success
                     rdata := w.datagram.data.take r.transfer_size }
          else
            { r with rstate := ReqState.success }
        { w with
            slave := updateCfgReg w.slave r.id ReqState.success
            req_results := w.req_results ++
              [(QueueId.regQueue, r.id, ReqState.success)]
            wakes := w.wakes ++ [QueueId.regQueue]
            fsm := { w.fsm with
              reg_request := some r'
              state := SlaveFsmState.ready } }
      else
        { w with
            slave := updateCfgReg w.slave r.id ReqState.failure
            req_results := w.req_results ++
              [(QueueId.regQueue, r.id, ReqState.failure)]
            wakes := w.wakes ++ [QueueId.regQueue]
            fsm := { w.fsm with
              reg_request := some { r with rstate := ReqState.failure }
              state := SlaveFsmState.ready } }
/-- ec_fsm_slave_state_foe_request: like the SDO case, over the FoE sub-FSM
and the FoE queue. -/
def ec_fsm_slave_state_foe_request (w : FsmWorld) (env : FsmEnv) : FsmWorld :=
  match w.fsm.foe_request with
  | none => w
  | some r =>
      if env.foe_exec_pending then
        { w with queued_count := w.queued_count + 1 }
      else if env.foe_success then
        { w with
            req_results := w.req_results ++
              [(QueueId.foeQueue, r.id, ReqState.success)]
            wakes := w.wakes ++ [QueueId.foeQueue]
            fsm := { w.fsm with foe_request := none
                                state := SlaveFsmState.ready } }
      else
        { w with
            req_results := w.req_results ++
              [(QueueId.foeQueue, r.id, ReqState.failure)]
            wakes := w.wakes ++ [QueueId.foeQueue]
            fsm := { w.fsm with foe_request := none
                                state := SlaveFsmState.ready } }
/-- ec_fsm_slave_state_soe_request: like the SDO case, over the SoE sub-FSM
and the SoE queue. -/
def ec_fsm_slave_state_soe_request (w : FsmWorld) (env : FsmEnv) : FsmWorld :=
  match w.fsm.soe_request with
  | none => w
  | some r =>
      if env.soe_exec_pending then
        { w with queued_count := w.queued_count + 1 }
      else if env.soe_success then
        { w with
            req_results := w.req_results ++
              [(QueueId.soeQueue, r.id, ReqState.success)]
            wakes := w.wakes ++ [QueueId.soeQueue]
            fsm := { w.fsm with soe_request := none
                                state := SlaveFsmState.ready } }
      else
        { w with
            req_results := w.req_results ++
              [(QueueId.soeQueue, r.id, ReqState.failure)]
            wakes := w.wakes ++ [QueueId.soeQueue]
            fsm := { w.fsm with soe_request := none
                                state := SlaveFsmState.ready } }
/-- The out-of-band driver mutation: before a step, the wire has stamped the
datagram slot with a state, a working counter and received data. -/
def wireStamp (w : FsmWorld) (dstate : DatagramState) (wc : Nat)
    (data : List Nat) : FsmWorld :=
  { w with datagram := { w.datagram with dstate := dstate
                                         working_counter := wc
                                         data := data } }
/-- ec_fsm_slave_exec: skip the step entirely while the datagram is queued
or sent; otherwise dispatch on the current state. -/
def ec_fsm_slave_exec (w : FsmWorld) (env : FsmEnv) : FsmWorld :=
  if w.datagram.dstate = DatagramState.sent ∨
      w.datagram.dstate = DatagramState.queued then
    w
  else
    match w.fsm.state with
    | SlaveFsmState.idle => w
    | SlaveFsmState.ready => ec_fsm_slave_state_ready w
    | SlaveFsmState.sdo_request => ec_fsm_slave_state_sdo_request w env
    | SlaveFsmState.reg_request => ec_fsm_slave_state_reg_request w
    | SlaveFsmState.foe_request => ec_fsm_slave_state_foe_request w env
    | SlaveFsmState.soe_request => ec_fsm_slave_state_soe_request w env

/-! ## Concrete slaves and environments used in the FSM theorems -/
/-- A slave in OP with the ACK_ERR flag set and one pending FoE request. -/
def ackErrFoeSlave : EcSlave :=
  { current_state := 24, station_address := 1001, device_index := 0
    config_reg_requests := none, sdo_requests := [], reg_requests := []
    foe_requests := [{ id := 7, rstate := ReqState.queued }]
    soe_requests := [] }
/-- An environment whose sub-state-machines report nothing. -/
def quietEnv : FsmEnv :=
  { coe_exec_pending := false, coe_success := false
    foe_exec_pending := false, foe_success := false
    soe_exec_pending := false, soe_success := false }
/-- A slave in OP with the ACK_ERR flag set and one pending SDO request,
for contrast with the FoE abort path. -/
def ackErrSdoSlave : EcSlave :=
  { current_state := 24, station_address := 1001, device_index := 0
    config_reg_requests := none
    sdo_requests := [{ id := 9, rstate := ReqState.queued }]
    reg_requests := [], foe_requests := [], soe_requests := [] }
/-- A slave in OP with one pending external input register request. -/
def regSlave : EcSlave :=
  { current_state := 8, station_address := 2001, device_index := 0
    config_reg_requests := none, sdo_requests := []
    reg_requests := [{ id := 3, rstate := ReqState.queued, dir := EcDir.input,
                       address := 2304, transfer_size := 1, rdata := [0] }]
    foe_requests := [], soe_requests := [] }

/-! ## Specification predicates for the request FSM -/
/-- The amended reference invariant of the request FSM: the SDO, FoE and SoE
references are non-null exactly in their matching states; in the
reg_request state the register reference is non-null (but, unlike the other
three, it may remain non-null outside its state: it is only reset at the
next dequeue attempt). -/
def FsmInv (f : EcFsmSlave) : Prop :=
  (f.sdo_request.isSome = true ↔ f.state = SlaveFsmState.sdo_request) ∧
  (f.foe_request.isSome = true ↔ f.state = SlaveFsmState.foe_request) ∧
  (f.soe_request.isSome = true ↔ f.state = SlaveFsmState.soe_request) ∧
  (f.state = SlaveFsmState.reg_request → f.reg_request.isSome = true)
/-- The SDO, FoE and SoE references are all null. -/
def RefsClear (f : EcFsmSlave) : Prop :=
  f.sdo_request = none ∧ f.foe_request = none ∧ f.soe_request = none

/-! ## C10: finish on a domain with no FMMU configs -/
/-- C10: Calling finish(base_address) on a domain with an empty FMMU config
list (data_size = 0) and internal origin returns success, performs no
process-image allocation, emits no datagram pairs, and leaves
expected_working_counter equal to 0 (regardless of whether allocation would
have succeeded). -/
theorem finish_empty_domain (base : Nat) (allocOk : Bool) :
    ec_domain_finish allocOk ec_domain_init base =
      Except.ok { ec_domain_init with logical_base_address := base } := by
  rfl

/-! ## C2: emitted pair payload sizes versus EC_MAX_DATA_SIZE -/
/-- Counterexample to C2 as stated: an FMMU larger than EC_MAX_DATA_SIZE
(1487 bytes) makes finish() emit a datagram pair whose payload size is 1487,
exceeding EC_MAX_DATA_SIZE (the code's todo about FMMUs that fit no datagram
is not handled).  The first emitted pair is the empty pair produced by the
cut that the oversize FMMU triggers. -/
theorem finish_oversize_fmmu_pair :
    ((ec_domain_finish true
        (registerAll [{ sc := 0, dir := EcDir.input, data_size := 1487,
                        logical_start_address := 0 }]) 0).toOption.map
      fun fd => fd.datagram_pairs.map fun p => p.data_size) = some [0, 1487] ∧
    EC_MAX_DATA_SIZE < 1487 := by
  constructor
  · rfl
  · decide
/-- Helper: the step of the packing loop preserves the bound on the current
datagram size and on all emitted pair sizes, provided the FMMU itself fits. -/
theorem finishStep_size_bound (maxData base : Nat) (st : FinishState)
    (f : FmmuConfig) (hf : f.data_size ≤ maxData)
    (h1 : st.datagram_size ≤ maxData)
    (h2 : ∀ p ∈ st.pairs, p.data_size ≤ maxData) :
    (finishStep maxData base st f).datagram_size ≤ maxData ∧
      ∀ p ∈ (finishStep maxData base st f).pairs, p.data_size ≤ maxData := by
  simp only [finishStep, emitPair]
  split
  · refine ⟨hf, ?_⟩
    intro p hp
    simp only [List.mem_append, List.mem_singleton] at hp
    rcases hp with hp | hp
    · exact h2 p hp
    · subst hp
      exact h1
  · rename_i hcut
    refine ⟨by show st.datagram_size + f.data_size ≤ maxData; omega, ?_⟩
    intro p hp
    exact h2 p hp
/-- Helper: the packing fold keeps all emitted pair payload sizes and the
current datagram size at most maxData when every FMMU fits individually. -/
theorem finishFold_size_bound (maxData base : Nat) :
    ∀ (fmmus : List FmmuConfig) (st : FinishState),
      (∀ f ∈ fmmus, f.data_size ≤ maxData) →
      st.datagram_size ≤ maxData →
      (∀ p ∈ st.pairs, p.data_size ≤ maxData) →
      (fmmus.foldl (finishStep maxData base) st).datagram_size ≤ maxData ∧
        ∀ p ∈ (fmmus.foldl (finishStep maxData base) st).pairs,
          p.data_size ≤ maxData := by
  intro fmmus
  induction fmmus with
  | nil =>
      intro st _ h1 h2
      exact ⟨h1, h2⟩
  | cons f fs ih =>
      intro st hall h1 h2
      have hf : f.data_size ≤ maxData := hall f (by simp)
      have hstep := finishStep_size_bound maxData base st f hf h1 h2
      simpa using ih (finishStep maxData base st f)
        (fun g hg => hall g (by simp [hg])) hstep.1 hstep.2
/-- C2 (amended): provided every registered FMMU's data size is at most the
maximum datagram payload, every emitted pair's payload size is at most that
maximum.  (The unamended claim, quantified over arbitrary FMMU sizes, fails:
see finish_oversize_fmmu_pair.) -/
theorem finish_pair_sizes_bounded (maxData base : Nat) (fmmus : List FmmuConfig)
    (h : ∀ f ∈ fmmus, f.data_size ≤ maxData) :
    ∀ p ∈ (ec_domain_finish_pack maxData base fmmus).pairs,
      p.data_size ≤ maxData := by
  have hfold := finishFold_size_bound maxData base fmmus finishInit h
    (by simp [finishInit]) (by simp [finishInit])
  intro p hp
  unfold ec_domain_finish_pack at hp
  simp only at hp
  split at hp
  · unfold emitPair at hp
    simp only [List.mem_append, List.mem_singleton] at hp
    rcases hp with hp | hp
    · exact hfold.2 p hp
    · subst hp
      exact hfold.1
  · exact hfold.2 p hp
/-- Witness for finish_pair_sizes_bounded at a concrete input: two FMMUs of
sizes 1486 and 1 with the protocol maximum; the bound is instantiated at the
final emitted pair. -/
theorem finish_pair_sizes_bounded_witness :
    DatagramPairSpec.data_size
      { logical_offset := 1486, data_size := 1, usedOut := 0, usedIn := 0,
        expected_working_counter := 0, counted := [] } ≤ EC_MAX_DATA_SIZE :=
  finish_pair_sizes_bounded EC_MAX_DATA_SIZE 0
    [{ sc := 0, dir := EcDir.input, data_size := 1486, logical_start_address := 0 },
     { sc := 1, dir := EcDir.input, data_size := 1, logical_start_address := 0 }]
    (by decide)
    { logical_offset := 1486, data_size := 1, usedOut := 0, usedIn := 0,
      expected_working_counter := 0, counted := [] }
    (by decide)

/-! ## C6: used counts of emitted pairs -/
/-- Counterexample to C6 as stated: with FMMUs of sizes 1486 and 1 on two
distinct slave configs, the second FMMU triggers a cut.  Its shall_count
contribution was already added to the first pair's used counts before the
cut, and the used counters are reset afterwards, so the final pair is
emitted with used counts (0, 0) — a combination the section 4.2 table says
never occurs. -/
theorem finish_emits_zero_used_pair :
    ((ec_domain_finish true
        (registerAll
          [{ sc := 0, dir := EcDir.input, data_size := 1486, logical_start_address := 0 },
           { sc := 1, dir := EcDir.input, data_size := 1, logical_start_address := 0 }]) 0).toOption.map
      fun fd => fd.datagram_pairs.map fun p => (p.usedOut, p.usedIn)) =
      some [(0, 2), (0, 0)] := by
  rfl
/-- Helper: behavior of the used-counter sum across one step. -/
theorem usedSum_after (b : Bool) (d : EcDir) (uo ui : Nat) :
    (b = true → 0 < (if b && decide (d = EcDir.output) then uo + 1 else uo)
        + (if b && decide (d = EcDir.input) then ui + 1 else ui)) ∧
    uo + ui ≤ (if b && decide (d = EcDir.output) then uo + 1 else uo)
        + (if b && decide (d = EcDir.input) then ui + 1 else ui) := by
  cases b <;> cases d <;> simp <;> omega
/-- The packing step preserves firstPairInv. -/
theorem finishStep_firstPair (maxData base : Nat) (st : FinishState)
    (f : FmmuConfig) (h : firstPairInv st) :
    firstPairInv (finishStep maxData base st f) := by
  obtain ⟨h1, h2⟩ := h
  have hsum := usedSum_after
    (shall_count { f with logical_start_address := f.logical_start_address + base }
      st.window) f.dir st.usedOut st.usedIn
  rcases hp : st.pairs with _ | ⟨p, ps⟩
  · -- nothing emitted yet
    have h2' := h2 hp
    simp only [finishStep, emitPair, hp]
    split
    · -- cut: the emitted pair becomes the first pair
      constructor
      · intro q hq
        simp only [List.nil_append, List.head?_cons, Option.some.injEq] at hq
        subst hq
        simp only
        rcases h2' with ⟨hw, _⟩ | hpos
        · refine hsum.1 ?_
          rw [hw]
          rfl
        · omega
      · intro hcontra
        simp at hcontra
    · -- no cut: still nothing emitted
      constructor
      · intro q hq
        simp only [hp] at hq
        simp at hq
      · intro _
        rcases h2' with ⟨hw, _⟩ | hpos
        · right
          refine hsum.1 ?_
          rw [hw]
          rfl
        · right
          exact Nat.lt_of_lt_of_le hpos hsum.2
  · -- a first pair exists already; appending keeps the head
    have hfirst : 0 < p.usedOut + p.usedIn := h1 p (by rw [hp]; rfl)
    simp only [finishStep, emitPair, hp]
    split
    · constructor
      · intro q hq
        simp only [List.cons_append, List.head?_cons, Option.some.injEq] at hq
        subst hq
        exact hfirst
      · intro hcontra
        simp at hcontra
    · constructor
      · intro q hq
        simp only [List.head?_cons, Option.some.injEq] at hq
        subst hq
        exact hfirst
      · intro hcontra
        simp at hcontra
/-- The packing fold preserves firstPairInv. -/
theorem finishFold_firstPair (maxData base : Nat) :
    ∀ (fmmus : List FmmuConfig) (st : FinishState), firstPairInv st →
      firstPairInv (fmmus.foldl (finishStep maxData base) st) := by
  intro fmmus
  induction fmmus with
  | nil => intro st h; exact h
  | cons f fs ih =>
      intro st h
      exact ih _ (finishStep_firstPair maxData base st f h)
/-- C6 (amended): the first emitted pair always has a positive used-count
sum.  (The unamended claim — that no emitted pair has used counts (0, 0) —
fails for pairs after the first, because an FMMU that triggers a cut is
counted toward the pair emitted at the cut and never toward the pair that
contains it: see finish_emits_zero_used_pair.) -/
theorem finish_first_pair_has_used (maxData base : Nat) (fmmus : List FmmuConfig)
    (p : DatagramPairSpec)
    (hp : (ec_domain_finish_pack maxData base fmmus).pairs.head? = some p) :
    0 < p.usedOut + p.usedIn := by
  have hinv : firstPairInv (fmmus.foldl (finishStep maxData base) finishInit) :=
    finishFold_firstPair maxData base fmmus finishInit
      (by constructor
          · intro q hq
            simp [finishInit] at hq
          · intro _
            left
            exact ⟨rfl, rfl⟩)
  obtain ⟨h1, h2⟩ := hinv
  unfold ec_domain_finish_pack at hp
  simp only at hp
  split at hp
  · rename_i hsz
    unfold emitPair at hp
    simp only at hp
    rcases hl : (fmmus.foldl (finishStep maxData base) finishInit).pairs with _ | ⟨q, qs⟩
    · rw [hl] at hp
      simp only [List.nil_append, List.head?_cons, Option.some.injEq] at hp
      subst hp
      simp only
      rcases h2 hl with ⟨_, hzero⟩ | hpos
      · rw [hzero] at hsz
        exact absurd hsz (by simp)
      · omega
    · rw [hl] at hp
      simp only [List.cons_append, List.head?_cons, Option.some.injEq] at hp
      subst hp
      exact h1 _ (by rw [hl]; rfl)
  · exact h1 p hp
/-- Witness for finish_first_pair_has_used at a concrete input. -/
theorem finish_first_pair_has_used_witness :
    0 <
      (DatagramPairSpec.usedOut
          { logical_offset := 0, data_size := 1486, usedOut := 0, usedIn := 2,
            expected_working_counter := 2,
            counted :=
              [{ sc := 0, dir := EcDir.input, data_size := 1486, logical_start_address := 0 },
               { sc := 1, dir := EcDir.input, data_size := 1, logical_start_address := 0 }] }) +
      (DatagramPairSpec.usedIn
          { logical_offset := 0, data_size := 1486, usedOut := 0, usedIn := 2,
            expected_working_counter := 2,
            counted :=
              [{ sc := 0, dir := EcDir.input, data_size := 1486, logical_start_address := 0 },
               { sc := 1, dir := EcDir.input, data_size := 1, logical_start_address := 0 }] }) :=
  finish_first_pair_has_used EC_MAX_DATA_SIZE 0
    [{ sc := 0, dir := EcDir.input, data_size := 1486, logical_start_address := 0 },
     { sc := 1, dir := EcDir.input, data_size := 1, logical_start_address := 0 }] _ (by rfl)

/-! ## C1: expected working counter as a sum over pairs with de-duplicated used counts -/
/-- Helper: counting a direction across an appended element. -/
theorem countDir_append_one (l : List FmmuConfig) (f : FmmuConfig) (d : EcDir) :
    countDir (l ++ [f]) d = countDir l d + if f.dir = d then 1 else 0 := by
  by_cases h : f.dir = d <;>
    simp [countDir, List.filter_append, h]
/-- Helper: shall_count succeeds exactly when no FMMU of the window shares
slave config and direction with the current FMMU. -/
theorem shall_count_spec (cur : FmmuConfig) (window : List FmmuConfig) :
    shall_count cur window = true ↔
      ∀ g ∈ window, ¬(g.sc = cur.sc ∧ g.dir = cur.dir) := by
  simp only [shall_count, List.all_eq_true, Bool.not_eq_true', decide_eq_false_iff_not]
/-- Helper: appending a conflict-free FMMU preserves noDupScDir. -/
theorem noDupScDir_append_one (l : List FmmuConfig) (f : FmmuConfig)
    (hl : noDupScDir l) (h : ∀ g ∈ l, ¬(g.sc = f.sc ∧ g.dir = f.dir)) :
    noDupScDir (l ++ [f]) := by
  rw [noDupScDir, List.pairwise_append]
  refine ⟨hl, by simp [noDupScDir], ?_⟩
  intro a ha b hb
  simp only [List.mem_singleton] at hb
  subst hb
  exact h a ha
/-- The packing step preserves packInv. -/
theorem finishStep_packInv (maxData base : Nat) (st : FinishState)
    (f : FmmuConfig) (h : packInv st) : packInv (finishStep maxData base st f) := by
  obtain ⟨he, hps, huo, hui, hnd, hsub⟩ := h
  simp only [finishStep, emitPair]
  split
  all_goals
    rcases hD : shall_count
        { f with logical_start_address := f.logical_start_address + base }
        st.window with _ | _
  -- cut, shall_count false
  · simp only [hD, Bool.false_and, Bool.false_eq_true, if_false, if_neg]
    refine ⟨?_, ?_, by simp [countDir], by simp [countDir], by simp [noDupScDir], by simp⟩
    · simp [List.map_append, he]
    · intro p hp
      simp only [List.mem_append, List.mem_singleton] at hp
      rcases hp with hp | hp
      · exact hps p hp
      · subst hp
        exact ⟨rfl, huo, hui, hnd⟩
  -- cut, shall_count true
  · have hfree : ∀ g ∈ st.counted, ¬(g.sc = f.sc ∧ g.dir = f.dir) := by
      intro g hg
      exact (shall_count_spec _ _).mp hD g (hsub g hg)
    simp only [hD, Bool.true_and, if_true]
    refine ⟨?_, ?_, by simp [countDir], by simp [countDir], by simp [noDupScDir], by simp⟩
    · simp [List.map_append, he]
    · intro p hp
      simp only [List.mem_append, List.mem_singleton] at hp
      rcases hp with hp | hp
      · exact hps p hp
      · subst hp
        refine ⟨rfl, ?_, ?_, ?_⟩
        · by_cases hdir : f.dir = EcDir.output <;>
            simp [countDir_append_one, huo, hdir]
        · by_cases hdir : f.dir = EcDir.input <;>
            simp [countDir_append_one, hui, hdir]
        · exact noDupScDir_append_one _ _ hnd hfree
  -- no cut, shall_count false
  · simp only [hD, Bool.false_and, Bool.false_eq_true, if_false, if_neg]
    refine ⟨he, hps, huo, hui, hnd, ?_⟩
    intro g hg
    exact List.mem_append_left _ (hsub g hg)
  -- no cut, shall_count true
  · have hfree : ∀ g ∈ st.counted, ¬(g.sc = f.sc ∧ g.dir = f.dir) := by
      intro g hg
      exact (shall_count_spec _ _).mp hD g (hsub g hg)
    simp only [hD, Bool.true_and, if_true]
    refine ⟨he, hps, ?_, ?_, ?_, ?_⟩
    · by_cases hdir : f.dir = EcDir.output <;>
        simp [countDir_append_one, huo, hdir]
    · by_cases hdir : f.dir = EcDir.input <;>
        simp [countDir_append_one, hui, hdir]
    · exact noDupScDir_append_one _ _ hnd hfree
    · intro g hg
      simp only [List.mem_append, List.mem_singleton] at hg
      rcases hg with hg | hg
      · exact List.mem_append_left _ (hsub g hg)
      · subst hg
        exact List.mem_append_right _ (by simp)
/-- The emission of a final pair preserves packInv. -/
theorem emitPair_packInv (base : Nat) (st : FinishState) (h : packInv st) :
    packInv (emitPair base st) := by
  obtain ⟨he, hps, huo, hui, hnd, hsub⟩ := h
  refine ⟨?_, ?_, huo, hui, hnd, hsub⟩
  · simp [emitPair, List.map_append, he]
  · intro p hp
    simp only [emitPair, List.mem_append, List.mem_singleton] at hp
    rcases hp with hp | hp
    · exact hps p hp
    · subst hp
      exact ⟨rfl, huo, hui, hnd⟩
/-- The packing fold preserves packInv. -/
theorem finishFold_packInv (maxData base : Nat) :
    ∀ (fmmus : List FmmuConfig) (st : FinishState), packInv st →
      packInv (fmmus.foldl (finishStep maxData base) st) := by
  intro fmmus
  induction fmmus with
  | nil => intro st h; exact h
  | cons f fs ih =>
      intro st h
      exact ih _ (finishStep_packInv maxData base st f h)
/-- The full packing run satisfies packInv. -/
theorem pack_packInv (maxData base : Nat) (fmmus : List FmmuConfig) :
    packInv (ec_domain_finish_pack maxData base fmmus) := by
  have h0 : packInv finishInit := by
    refine ⟨rfl, ?_, rfl, rfl, ?_, ?_⟩ <;> simp [finishInit, noDupScDir]
  have hf := finishFold_packInv maxData base fmmus finishInit h0
  unfold ec_domain_finish_pack
  simp only
  split
  · exact emitPair_packInv base _ hf
  · exact hf
/-- Helper: registration does not touch the pair list or the expected WC,
and records the FMMUs in order. -/
theorem registerAll_fields (fmmus : List FmmuConfig) :
    (registerAll fmmus).datagram_pairs = [] ∧
    (registerAll fmmus).expected_working_counter = 0 ∧
    (registerAll fmmus).fmmu_configs = fmmus := by
  have hgen : ∀ (fs : List FmmuConfig) (d : EcDomain),
      (fs.foldl ec_domain_add_fmmu_config d).datagram_pairs = d.datagram_pairs ∧
      (fs.foldl ec_domain_add_fmmu_config d).expected_working_counter =
        d.expected_working_counter ∧
      (fs.foldl ec_domain_add_fmmu_config d).fmmu_configs = d.fmmu_configs ++ fs := by
    intro fs
    induction fs with
    | nil => intro d; simp
    | cons f gs ih =>
        intro d
        have h := ih (ec_domain_add_fmmu_config d f)
        simpa [ec_domain_add_fmmu_config] using h
  simpa [registerAll, ec_domain_init] using hgen fmmus ec_domain_init
/-- C1: after finish() on a domain built by registering FMMU configurations,
the domain's expected working counter equals the sum over the emitted
datagram pairs of each pair's expected working counter, where each pair's
expected WC follows the section 4.2 table applied to its used counts, the
used counts count exactly the FMMUs whose shall_count test fired for that
pair, and no slave-config/direction combination is counted twice for the
same pair. -/
theorem finish_expected_wc_sum (allocOk : Bool) (base : Nat)
    (fmmus : List FmmuConfig) (fd : EcDomain)
    (hfd : ec_domain_finish allocOk (registerAll fmmus) base = Except.ok fd) :
    fd.expected_working_counter =
      (fd.datagram_pairs.map fun p => p.expected_working_counter).sum ∧
    ∀ p ∈ fd.datagram_pairs, pairCountsOk p := by
  obtain ⟨hdp, hwc, hfc⟩ := registerAll_fields fmmus
  unfold ec_domain_finish at hfd
  simp only at hfd
  split at hfd
  · exact absurd hfd (by simp)
  · simp only [Except.ok.injEq] at hfd
    subst hfd
    have hinv := pack_packInv EC_MAX_DATA_SIZE base
      ({ registerAll fmmus with logical_base_address := base }).fmmu_configs
    obtain ⟨he, hps, _⟩ := hinv
    constructor
    · simp only [hwc, hdp, List.nil_append, Nat.zero_add]
      exact he
    · intro p hp
      simp only [hdp, List.nil_append] at hp
      exact hps p hp
/-- Witness for finish_expected_wc_sum at a concrete input: the mixed pair
of section 8 scenario 3 (one input FMMU and one output FMMU of the same
slave config). -/
theorem finish_expected_wc_sum_witness :
    (4 : Nat) =
      (((ec_domain_finish true
          (registerAll
            [{ sc := 5, dir := EcDir.input, data_size := 2, logical_start_address := 0 },
             { sc := 5, dir := EcDir.output, data_size := 2, logical_start_address := 2 }]) 4096).toOption.getD
          ec_domain_init).datagram_pairs.map fun p => p.expected_working_counter).sum ∧
    (4 : Nat) =
      ((ec_domain_finish true
          (registerAll
            [{ sc := 5, dir := EcDir.input, data_size := 2, logical_start_address := 0 },
             { sc := 5, dir := EcDir.output, data_size := 2, logical_start_address := 2 }]) 4096).toOption.getD
          ec_domain_init).expected_working_counter := by
  have h := finish_expected_wc_sum true 4096
    [{ sc := 5, dir := EcDir.input, data_size := 2, logical_start_address := 0 },
     { sc := 5, dir := EcDir.output, data_size := 2, logical_start_address := 2 }]
    (((ec_domain_finish true
        (registerAll
          [{ sc := 5, dir := EcDir.input, data_size := 2, logical_start_address := 0 },
           { sc := 5, dir := EcDir.output, data_size := 2, logical_start_address := 2 }]) 4096).toOption.getD
        ec_domain_init)) (by rfl)
  refine ⟨?_, by rfl⟩
  rw [← h.1]
  rfl

/-! ## C3: the merge follows the three-case policy -/
/-- Helper: the copied window of a memcpy is the source window. -/
theorem sliceL_memcpyAt (dst src : List Nat) (off len : Nat)
    (hd : off + len ≤ dst.length) (hs : off + len ≤ src.length) :
    sliceL (memcpyAt dst src off len) off len = sliceL src off len := by
  have hA : (dst.take off).length = off := List.length_take_of_le (by omega)
  have hB : (sliceL src off len).length = len := by
    rw [sliceL, List.length_take_of_le]
    rw [List.length_drop]
    omega
  rw [memcpyAt, sliceL, List.append_assoc, List.drop_left' hA, List.take_left' hB]
/-- C3: for every input-direction FMMU processed by ecrt_domain_process, the
merge of the FMMU's payload window follows the three-case policy of section
4.4: keep main if main's window changed versus the staged copy; otherwise
copy backup's window over main's if backup's window changed or the pair's
working counter equals its expected working counter; otherwise leave main
unchanged. -/
theorem merge_matches_spec_policy (p : DgPair) (off len wcNow : Nat)
    (hm : off + len ≤ p.mainData.length) (hb : off + len ≤ p.backupData.length) :
    sliceL (mergeInputFmmu p off len wcNow).mainData off len =
      specMergeWindow (sliceL p.mainData off len) (sliceL p.backupData off len)
        (sliceL p.sendBuffer off len) wcNow p.expected_working_counter := by
  by_cases h1 : sliceL p.mainData off len = sliceL p.sendBuffer off len
  · by_cases h2 : sliceL p.backupData off len ≠ sliceL p.sendBuffer off len ∨
        wcNow = p.expected_working_counter
    · have hcopy : mergeInputFmmu p off len wcNow =
          { p with mainData := memcpyAt p.mainData p.backupData off len } := by
        unfold mergeInputFmmu ec_datagram_pair_data_changed
        rcases h2 with h2 | h2 <;> simp [h1, h2]
      rw [hcopy]
      simp only [specMergeWindow]
      rw [if_neg (by simp [h1]), if_pos h2]
      exact sliceL_memcpyAt p.mainData p.backupData off len hm hb
    · have hkeep : mergeInputFmmu p off len wcNow = p := by
        push_neg at h2
        unfold mergeInputFmmu ec_datagram_pair_data_changed
        simp [h1, h2.1, h2.2]
      rw [hkeep]
      simp only [specMergeWindow]
      rw [if_neg (by simp [h1]), if_neg h2]
  · have hmain : mergeInputFmmu p off len wcNow = p := by
      unfold mergeInputFmmu ec_datagram_pair_data_changed
      simp [h1]
    rw [hmain]
    simp only [specMergeWindow]
    rw [if_pos (by simp [h1])]
/-- Witness for merge_matches_spec_policy at a concrete input (section 8
scenario 6: main silent, pair working counter complete, backup adopted). -/
theorem merge_matches_spec_policy_witness :
    sliceL (mergeInputFmmu
        { address := 4096, size := 4, mainData := [0, 0, 0, 0],
          backupData := [1, 2, 3, 4], sendBuffer := [0, 0, 0, 0],
          expected_working_counter := 1, aggWc := 1 } 0 4 1).mainData 0 4 =
      specMergeWindow
        (sliceL [0, 0, 0, 0] 0 4) (sliceL [1, 2, 3, 4] 0 4)
        (sliceL [0, 0, 0, 0] 0 4) 1 1 :=
  merge_matches_spec_policy
    { address := 4096, size := 4, mainData := [0, 0, 0, 0],
      backupData := [1, 2, 3, 4], sendBuffer := [0, 0, 0, 0],
      expected_working_counter := 1, aggWc := 1 } 0 4 1 (by decide) (by decide)

/-! ## C7: queue() makes main, backup and staging byte-equal -/
/-- C7: after ecrt_domain_queue, for every datagram pair of the domain the
send-staging buffer and the backup payload are byte-for-byte equal to the
main payload over the pair's payload window. -/
theorem queue_buffers_equal (d : DomainRt)
    (hlen : ∀ q ∈ d.pairs, q.size ≤ q.mainData.length) :
    ∀ p ∈ (ecrt_domain_queue d).1.pairs,
      p.sendBuffer.take p.size = p.mainData.take p.size ∧
      p.backupData.take p.size = p.mainData.take p.size := by
  intro p hp
  simp only [ecrt_domain_queue, List.mem_map] at hp
  obtain ⟨q, hq, rfl⟩ := hp
  have hlq := hlen q hq
  constructor <;>
    exact List.take_left' (List.length_take_of_le hlq)
/-- Witness for queue_buffers_equal at a concrete input (section 8 scenario
2: the application wrote four bytes into the image), instantiated at the
single queued pair. -/
theorem queue_buffers_equal_witness :
    (DgPair.sendBuffer
        { address := 0, size := 4, mainData := [170, 187, 204, 221],
          backupData := [170, 187, 204, 221],
          sendBuffer := [170, 187, 204, 221],
          expected_working_counter := 1, aggWc := 0 }).take 4 =
      List.take 4 [170, 187, 204, 221] ∧
    (DgPair.backupData
        { address := 0, size := 4, mainData := [170, 187, 204, 221],
          backupData := [170, 187, 204, 221],
          sendBuffer := [170, 187, 204, 221],
          expected_working_counter := 1, aggWc := 0 }).take 4 =
      List.take 4 [170, 187, 204, 221] :=
  queue_buffers_equal
    { fmmu_configs := [{ sc := 0, dir := EcDir.output, data_size := 4,
                         logical_start_address := 0 }]
      pairs := [{ address := 0, size := 4, mainData := [170, 187, 204, 221],
                  backupData := [0, 0, 0, 0], sendBuffer := [0, 0, 0, 0],
                  expected_working_counter := 1, aggWc := 0 }]
      working_counter := 0, expected_working_counter := 1
      working_counter_changes := 0, notify_jiffies := 0 }
    (by decide)
    { address := 0, size := 4, mainData := [170, 187, 204, 221],
      backupData := [170, 187, 204, 221],
      sendBuffer := [170, 187, 204, 221],
      expected_working_counter := 1, aggWc := 0 }
    (by decide)

/-! ## C5: the pre-loop of process() reads the uninitialised fmmu pointer -/
/-- The core of process() records the uninitialised read whenever the
datagram-pair list is non-empty. -/
theorem process_core_uninit_read (d : DomainRt) (h : d.pairs ≠ []) :
    (ec_domain_process_core d).uninit_fmmu_read = true := by
  rcases hd : d.pairs with _ | ⟨p0, rest⟩
  · exact absurd hd h
  · unfold ec_domain_process_core
    rw [hd]
    simp only
    split <;> rfl
/-- C5: for every domain whose datagram-pair list is non-empty, the pre-loop
part of ecrt_domain_process computes the datagram offset from the fmmu
variable before any loop has assigned it — the embedding's
uninitialised-read branch is reached for the first pair on every call. -/
theorem process_uninit_read (d : DomainRt) (jiffies hz : Nat)
    (h : d.pairs ≠ []) :
    (ecrt_domain_process d jiffies hz).uninit_fmmu_read = true := by
  unfold ecrt_domain_process
  simp only
  split
  · exact process_core_uninit_read d h
  · exact process_core_uninit_read d h
/-- Witness for process_uninit_read at a concrete one-pair domain. -/
theorem process_uninit_read_witness :
    (ecrt_domain_process
      { fmmu_configs := []
        pairs := [{ address := 0, size := 1, mainData := [0],
                    backupData := [0], sendBuffer := [0],
                    expected_working_counter := 1, aggWc := 1 }]
        working_counter := 0, expected_working_counter := 1
        working_counter_changes := 0, notify_jiffies := 0 } 0 100).uninit_fmmu_read
      = true :=
  process_uninit_read _ 0 100 (by decide)

/-! ## C4: the working counter after process() -/
/-- Counterexample to C4 as stated: on trailingOutputDomain the aggregate
working counters of the two pairs sum to 2, but process() sets the domain's
working counter to 1 — the second pair, holding only output-direction
FMMUs after the last input FMMU, is never processed or summed. -/
theorem process_misses_trailing_output_pair :
    (ecrt_domain_process trailingOutputDomain 0 250).domain.working_counter = 1 ∧
    ((trailingOutputDomain.pairs.map fun p => p.aggWc).sum) = 2 := by
  constructor <;> rfl
/-- The merge preserves the pair's shape. -/
theorem pairShape_merge (p : DgPair) (off len wcNow : Nat) :
    pairShape (mergeInputFmmu p off len wcNow) = pairShape p := by
  unfold mergeInputFmmu
  split
  · rfl
  · split <;> rfl
/-- Shape equality transports the aggregate-WC lists. -/
theorem map_aggWc_of_shapes {l l' : List DgPair} (h : shapes l = shapes l') :
    (l.map fun p => p.aggWc) = l'.map fun p => p.aggWc := by
  have e : ∀ m : List DgPair,
      (m.map fun p => p.aggWc) = (shapes m).map fun t => t.2.2 := by
    intro m
    rw [shapes, List.map_map]
    rfl
  rw [e l, e l', h]
/-- Shape equality transports pairIdxOf. -/
theorem pairIdxOf_of_shapes (x : Nat) :
    ∀ {l l' : List DgPair}, shapes l = shapes l' →
      pairIdxOf l x = pairIdxOf l' x := by
  intro l
  induction l with
  | nil =>
      intro l' h
      have : l' = [] := by
        cases l' with
        | nil => rfl
        | cons q qs => simp [shapes] at h
      subst this
      rfl
  | cons p r ih =>
      intro l' h
      cases l' with
      | nil => simp [shapes] at h
      | cons q qs =>
          simp only [shapes, List.map_cons, List.cons.injEq] at h
          obtain ⟨hpq, hrq⟩ := h
          have ha : p.address = q.address := congrArg Prod.fst hpq
          have hs : p.size = q.size := congrArg (fun t => t.2.1) hpq
          simp only [pairIdxOf, ha, hs, ih hrq]
/-- Shape equality transports the address-plus-size bound over a list. -/
theorem addrSize_bound_of_shapes {m m' : List DgPair} (h : shapes m = shapes m')
    (x : Nat) (hb : ∀ p ∈ m', p.address + p.size ≤ x) :
    ∀ p ∈ m, p.address + p.size ≤ x := by
  intro p hp
  have hmem : pairShape p ∈ shapes m' := by
    rw [← h]
    exact List.mem_map_of_mem pairShape hp
  obtain ⟨q, hq, he⟩ := List.mem_map.mp hmem
  have ha : q.address = p.address := congrArg Prod.fst he
  have hs : q.size = p.size := congrArg (fun t => t.2.1) he
  have := hb q hq
  omega
/-- Characterization of pairIdxOf on a contiguous list: for an address
inside the list's range, it is a valid index, all earlier pairs end at or
before the address, and the indexed pair's window contains the address. -/
theorem pairIdxOf_char (x : Nat) :
    ∀ (l : List DgPair) (a0 : Nat), contigPairs a0 l = true → a0 ≤ x →
      x < a0 + pairsTotalSize l →
      pairIdxOf l x < l.length ∧
      (∀ p ∈ l.take (pairIdxOf l x), p.address + p.size ≤ x) ∧
      ∃ pk tk, l.drop (pairIdxOf l x) = pk :: tk ∧ pk.address ≤ x ∧
        x < pk.address + pk.size := by
  intro l
  induction l with
  | nil =>
      intro a0 _ hle hlt
      simp [pairsTotalSize] at hlt
      omega
  | cons p r ih =>
      intro a0 hc hle hlt
      simp only [contigPairs, Bool.and_eq_true, decide_eq_true_eq] at hc
      obtain ⟨hpa, hcr⟩ := hc
      by_cases hin : x - p.address < p.size
      · have hk0 : pairIdxOf (p :: r) x = 0 := by simp [pairIdxOf, hin]
        rw [hk0]
        refine ⟨by simp, by simp, p, r, rfl, by omega, by omega⟩
      · have hk : pairIdxOf (p :: r) x = pairIdxOf r x + 1 := by
          simp [pairIdxOf, hin]
        have hge : p.address + p.size ≤ x := by omega
        have htot : x < (a0 + p.size) + pairsTotalSize r := by
          have : pairsTotalSize (p :: r) = p.size + pairsTotalSize r := by
            simp [pairsTotalSize]
          omega
        obtain ⟨ih1, ih2, pk, tk, ihd, ihpk1, ihpk2⟩ :=
          ih (a0 + p.size) hcr (by omega) htot
        rw [hk]
        refine ⟨by simp; omega, ?_, pk, tk, ihd, ihpk1, ihpk2⟩
        intro q hq
        rw [List.take_succ_cons] at hq
        rcases List.mem_cons.mp hq with hq | hq
        · subst hq; exact hge
        · exact ih2 q hq
/-- pairIdxOf decomposes across a prefix of pairs all ending at or before
the address. -/
theorem pairIdxOf_add_drop (x : Nat) :
    ∀ (l : List DgPair) (c : Nat), c ≤ l.length →
      (∀ p ∈ l.take c, p.address + p.size ≤ x) →
      pairIdxOf l x = c + pairIdxOf (l.drop c) x := by
  intro l
  induction l with
  | nil =>
      intro c hc _
      have : c = 0 := by simpa using hc
      subst this
      rfl
  | cons p r ih =>
      intro c hc hp
      rcases c with _ | c'
      · simp
      · have hhead : p.address + p.size ≤ x := hp p (by simp)
        have hnotin : ¬ (x - p.address < p.size) := by omega
        have hrec := ih c' (by simpa using hc)
          (by intro q hq; exact hp q (by rw [List.take_succ_cons]; exact List.mem_cons_of_mem p hq))
        simp only [pairIdxOf, hnotin, if_false, List.drop_succ_cons, hrec]
        omega
/-- Characterization of the cursor-advance loop: when the target address has
a valid pair index within the sub-chain ahead, the loop stops exactly at
that pair, having passed the pairs before it and added each newly entered
pair's working counter; no overrun occurs and the last processed working
counter is the reached pair's. -/
theorem processAdvance_char (x : Nat) :
    ∀ (rest : List DgPair) (cur : DgPair) (done : List DgPair) (sum : Nat)
      (hd : DgPair) (tl : List DgPair),
      pairIdxOf (cur :: rest) x < (cur :: rest).length →
      (cur :: rest).drop (pairIdxOf (cur :: rest) x) = hd :: tl →
      processAdvance x done cur sum cur.aggWc rest =
        (done ++ (cur :: rest).take (pairIdxOf (cur :: rest) x), hd, tl,
         sum + ((rest.take (pairIdxOf (cur :: rest) x)).map fun p => p.aggWc).sum,
         hd.aggWc, false) := by
  intro rest
  induction rest with
  | nil =>
      intro cur done sum hd tl hk hdrop
      by_cases hin : x - cur.address < cur.size
      · have hk0 : pairIdxOf [cur] x = 0 := by simp [pairIdxOf, hin]
        rw [hk0] at hdrop
        simp only [List.drop_zero, List.cons.injEq] at hdrop
        obtain ⟨rfl, rfl⟩ := hdrop
        rw [hk0]
        simp [processAdvance, hin]
      · exfalso
        have : pairIdxOf [cur] x = 1 := by simp [pairIdxOf, hin]
        rw [this] at hk
        simp at hk
  | cons p r ih =>
      intro cur done sum hd tl hk hdrop
      by_cases hin : x - cur.address < cur.size
      · have hk0 : pairIdxOf (cur :: p :: r) x = 0 := by simp [pairIdxOf, hin]
        rw [hk0] at hdrop
        simp only [List.drop_zero, List.cons.injEq] at hdrop
        obtain ⟨rfl, rfl⟩ := hdrop
        rw [hk0]
        simp [processAdvance, hin]
      · have hkk : pairIdxOf (cur :: p :: r) x = pairIdxOf (p :: r) x + 1 := by
          simp [pairIdxOf, hin]
        rw [hkk] at hk hdrop ⊢
        have hk' : pairIdxOf (p :: r) x < (p :: r).length := by
          simpa using hk
        have hdrop' : (p :: r).drop (pairIdxOf (p :: r) x) = hd :: tl := by
          simpa [List.drop_succ_cons] using hdrop
        have hstep : processAdvance x done cur sum cur.aggWc (p :: r) =
            processAdvance x (done ++ [cur]) p (sum + p.aggWc) p.aggWc r := by
          simp [processAdvance, hin, ec_datagram_pair_process]
        rw [hstep, ih p (done ++ [cur]) (sum + p.aggWc) hd tl hk' hdrop']
        simp only [List.take_succ_cons, List.map_cons, List.sum_cons]
        rw [List.append_assoc]
        simp only [List.singleton_append]
        rw [Nat.add_assoc]
/-- Characterization of the FMMU loop of process(): starting from a cursor
at pair index c of a contiguous pair list whose shapes match l, with the sum
covering the pairs up to c, the loop finishes with the cursor at the pair of
the last input FMMU (or still at c without input FMMUs), no overrun, and the
sum covering exactly the pairs up to that index. -/
theorem processFold_char (l : List DgPair) (a0 : Nat)
    (hc : contigPairs a0 l = true) :
    ∀ (fs : List FmmuConfig) (st : ProcCursor) (c : Nat),
      shapes (st.done ++ st.cur :: st.rest) = shapes l →
      st.done.length = c →
      st.sum = ((l.take (c + 1)).map fun p => p.aggWc).sum →
      st.pairWc = st.cur.aggWc →
      st.overrun = false →
      (∀ f ∈ inputFmmus fs, ∀ p ∈ l.take c,
        p.address + p.size ≤ f.logical_start_address) →
      (∀ f ∈ inputFmmus fs, a0 ≤ f.logical_start_address ∧
        f.logical_start_address < a0 + pairsTotalSize l) →
      (inputFmmus fs).Pairwise
        (fun f g => f.logical_start_address ≤ g.logical_start_address) →
      (fs.foldl processFmmu st).overrun = false ∧
      (fs.foldl processFmmu st).done.length = lastInputPairIdx l fs c ∧
      (fs.foldl processFmmu st).sum =
        ((l.take (lastInputPairIdx l fs c + 1)).map fun p => p.aggWc).sum := by
  intro fs
  induction fs with
  | nil =>
      intro st c h1 h2 h3 h4 h5 _ _ _
      refine ⟨h5, ?_, ?_⟩ <;>
        simp [lastInputPairIdx, inputFmmus, h2, h3]
  | cons f fs' ih =>
      intro st c h1 h2 h3 h4 h5 h6 h7 h8
      rw [List.foldl_cons]
      by_cases hdir : f.dir = EcDir.input
      · -- input FMMU: the cursor advances to the pair containing its window
        have hfilter : inputFmmus (f :: fs') = f :: inputFmmus fs' := by
          simp [inputFmmus, hdir]
        rw [hfilter] at h6 h7 h8
        obtain ⟨hb1, hb2⟩ := h7 f (List.mem_cons_self f _)
        obtain ⟨hkl, hktake, pk, tk, hkdrop, hpk1, hpk2⟩ :=
          pairIdxOf_char f.logical_start_address l a0 hc hb1 hb2
        have hlen : (st.done ++ st.cur :: st.rest).length = l.length := by
          have hh := congrArg List.length h1
          simpa [shapes] using hh
        have hlen2 : c + (st.cur :: st.rest).length = l.length := by
          rw [← hlen, List.length_append, h2]
        have hcl : c ≤ (st.done ++ st.cur :: st.rest).length := by
          rw [List.length_append, h2]
          omega
      -- the pairs before the cursor all end before this FMMU's start
        have htakeshape : shapes ((st.done ++ st.cur :: st.rest).take c) =
            shapes (l.take c) := by
          simp only [shapes, List.map_take]
          rw [show List.map pairShape (st.done ++ st.cur :: st.rest) =
            List.map pairShape l from h1]
        have hboundc : ∀ p ∈ (st.done ++ st.cur :: st.rest).take c,
            p.address + p.size ≤ f.logical_start_address :=
          addrSize_bound_of_shapes htakeshape _
            (h6 f (List.mem_cons_self f _))
        have hidx : pairIdxOf (st.done ++ st.cur :: st.rest)
            f.logical_start_address = pairIdxOf l f.logical_start_address :=
          pairIdxOf_of_shapes _ h1
        have hdropc : (st.done ++ st.cur :: st.rest).drop c = st.cur :: st.rest :=
          List.drop_left' h2
        have hadd : pairIdxOf l f.logical_start_address =
            c + pairIdxOf (st.cur :: st.rest) f.logical_start_address := by
          rw [← hidx,
            pairIdxOf_add_drop f.logical_start_address _ c hcl hboundc, hdropc]
        have hkrel : pairIdxOf (st.cur :: st.rest) f.logical_start_address <
            (st.cur :: st.rest).length := by
          omega
        have hdropne : (st.cur :: st.rest).drop
            (pairIdxOf (st.cur :: st.rest) f.logical_start_address) ≠ [] := by
          intro hnil
          rw [List.drop_eq_nil_iff] at hnil
          omega
        obtain ⟨hd, tl, hdt⟩ := List.exists_cons_of_ne_nil hdropne
        have hwalk := processAdvance_char f.logical_start_address st.rest
          st.cur st.done st.sum hd tl hkrel hdt
        have hstep : processFmmu st f =
            { done := st.done ++ (st.cur :: st.rest).take
                (pairIdxOf (st.cur :: st.rest) f.logical_start_address)
              cur := mergeInputFmmu hd (f.logical_start_address - hd.address)
                f.data_size hd.aggWc
              rest := tl
              sum := st.sum + ((st.rest.take
                (pairIdxOf (st.cur :: st.rest) f.logical_start_address)).map
                  fun p => p.aggWc).sum
              pairWc := hd.aggWc, overrun := false } := by
          unfold processFmmu
          rw [if_neg (by simp [hdir]), if_neg (by simp [h5]), h4, hwalk]
        rw [hstep]
        -- invariants for the tail of the FMMU list
        have hsubsplit : (st.cur :: st.rest).take
            (pairIdxOf (st.cur :: st.rest) f.logical_start_address) ++ hd :: tl =
            st.cur :: st.rest := by
          rw [← hdt]
          exact List.take_append_drop _ _
        have hmergeShape : pairShape (mergeInputFmmu hd
            (f.logical_start_address - hd.address) f.data_size hd.aggWc) =
            pairShape hd :=
          pairShape_merge hd _ _ _
        have hshape2 : shapes ((st.done ++ (st.cur :: st.rest).take
            (pairIdxOf (st.cur :: st.rest) f.logical_start_address)) ++
              mergeInputFmmu hd (f.logical_start_address - hd.address)
                f.data_size hd.aggWc :: tl) = shapes l := by
          simp only [shapes, List.map_append, List.map_cons, hmergeShape]
          rw [List.append_assoc]
          rw [show pairShape hd :: List.map pairShape tl =
            List.map pairShape (hd :: tl) from rfl]
          rw [← List.map_append, hsubsplit]
          simp only [shapes, List.map_append] at h1
          exact h1
        have hlentake : ((st.cur :: st.rest).take
            (pairIdxOf (st.cur :: st.rest) f.logical_start_address)).length =
            pairIdxOf (st.cur :: st.rest) f.logical_start_address :=
          List.length_take_of_le (by omega)
        have hlen3 : (st.done ++ (st.cur :: st.rest).take
            (pairIdxOf (st.cur :: st.rest) f.logical_start_address)).length =
            pairIdxOf l f.logical_start_address := by
          rw [List.length_append, h2, hlentake]
          omega
        have hrest : (st.done ++ st.cur :: st.rest).drop (c + 1) = st.rest := by
          rw [← List.drop_drop, hdropc]
          rfl
        have hshaperest : shapes st.rest = shapes (l.drop (c + 1)) := by
          rw [← hrest]
          simp only [shapes, List.map_drop]
          rw [show List.map pairShape (st.done ++ st.cur :: st.rest) =
            List.map pairShape l from h1]
        have hsum2 : st.sum + ((st.rest.take
            (pairIdxOf (st.cur :: st.rest) f.logical_start_address)).map
              fun p => p.aggWc).sum =
            ((l.take (pairIdxOf l f.logical_start_address + 1)).map
              fun p => p.aggWc).sum := by
          have hmapeq : ((st.rest.take
              (pairIdxOf (st.cur :: st.rest) f.logical_start_address)).map
                fun p => p.aggWc) =
              (((l.drop (c + 1)).take
                (pairIdxOf (st.cur :: st.rest) f.logical_start_address)).map
                fun p => p.aggWc) := by
            rw [List.map_take, List.map_take, map_aggWc_of_shapes hshaperest]
          have hsplit : l.take (pairIdxOf l f.logical_start_address + 1) =
              l.take (c + 1) ++ (l.drop (c + 1)).take
                (pairIdxOf (st.cur :: st.rest) f.logical_start_address) := by
            rw [← List.take_add]
            congr 1
            omega
          rw [h3, hmapeq, hsplit, List.map_append, List.sum_append]
        have hpw : (mergeInputFmmu hd (f.logical_start_address - hd.address)
            f.data_size hd.aggWc).aggWc = hd.aggWc :=
          congrArg (fun t => t.2.2) hmergeShape
        have hbound6 : ∀ g ∈ inputFmmus fs',
            ∀ p ∈ l.take (pairIdxOf l f.logical_start_address),
              p.address + p.size ≤ g.logical_start_address := by
          intro g hg p hp
          have hfg : f.logical_start_address ≤ g.logical_start_address :=
            (List.pairwise_cons.mp h8).1 g hg
          have := hktake p hp
          omega
        have hres := ih
          { done := st.done ++ (st.cur :: st.rest).take
              (pairIdxOf (st.cur :: st.rest) f.logical_start_address)
            cur := mergeInputFmmu hd (f.logical_start_address - hd.address)
              f.data_size hd.aggWc
            rest := tl
            sum := st.sum + ((st.rest.take
              (pairIdxOf (st.cur :: st.rest) f.logical_start_address)).map
                fun p => p.aggWc).sum
            pairWc := hd.aggWc, overrun := false }
          (pairIdxOf l f.logical_start_address)
          hshape2 hlen3 hsum2 hpw.symm rfl hbound6
          (fun g hg => h7 g (List.mem_cons_of_mem f hg))
          (List.pairwise_cons.mp h8).2
        refine ⟨hres.1, ?_, ?_⟩
        · rw [hres.2.1]
          rw [lastInputPairIdx, lastInputPairIdx, hfilter]
          rcases hin' : inputFmmus fs' with _ | ⟨b, bs⟩
          · simp [List.getLast?]
          · rw [List.getLast?_cons_cons]
            rcases hgl : (b :: bs).getLast? with _ | g
            · simp at hgl
            · rfl
        · rw [hres.2.2]
          rw [lastInputPairIdx, lastInputPairIdx, hfilter]
          rcases hin' : inputFmmus fs' with _ | ⟨b, bs⟩
          · simp [List.getLast?]
          · rw [List.getLast?_cons_cons]
            rcases hgl : (b :: bs).getLast? with _ | g
            · simp at hgl
            · rfl
      · -- non-input FMMU: skipped by the loop and by the filter
        have hskip : processFmmu st f = st := by
          unfold processFmmu
          rw [if_pos (by simp [hdir])]
        have hfilter : inputFmmus (f :: fs') = inputFmmus fs' := by
          simp [inputFmmus, hdir]
        rw [hfilter] at h6 h7 h8
        have hres := ih st c h1 h2 h3 h4 h5 h6 h7 h8
        rw [hskip]
        refine ⟨hres.1, ?_, ?_⟩
        · rw [hres.2.1, lastInputPairIdx, lastInputPairIdx, hfilter]
        · rw [hres.2.2, lastInputPairIdx, lastInputPairIdx, hfilter]
/-- C4 (amended): after process(), the domain's working counter equals the
sum of the aggregate working counters of the pairs the loop visits — the
first pair and every pair up to the one containing the last input-direction
FMMU — and the change counter is incremented exactly when this sum differs
from the previous working counter (before the once-per-second notification
may reset it).  The sum is taken modulo 2^16, the width of the uint16_t
running sum of the source.  Pairs after the last input FMMU, other than the
first pair,
are never summed; the unamended claim (sum over all pairs) fails: see
process_misses_trailing_output_pair. -/
theorem process_wc_visited_sum (d : DomainRt) (a0 : Nat)
    (hc : contigPairs a0 d.pairs = true)
    (hb : ∀ f ∈ inputFmmus d.fmmu_configs,
      a0 ≤ f.logical_start_address ∧
      f.logical_start_address < a0 + pairsTotalSize d.pairs)
    (hsorted : (inputFmmus d.fmmu_configs).Pairwise
      (fun f g => f.logical_start_address ≤ g.logical_start_address))
    (hne : d.pairs = [] → inputFmmus d.fmmu_configs = []) :
    (ec_domain_process_core d).domain.working_counter = visitedWcSum d % 65536 ∧
    (ec_domain_process_core d).domain.working_counter_changes =
      (if visitedWcSum d % 65536 ≠ d.working_counter then
        d.working_counter_changes + 1
       else d.working_counter_changes) ∧
    ∀ jiffies hz, (ecrt_domain_process d jiffies hz).domain.working_counter =
      visitedWcSum d % 65536 := by
  have hwc : (ec_domain_process_core d).domain.working_counter =
      visitedWcSum d % 65536 ∧
      (ec_domain_process_core d).domain.working_counter_changes =
        (if visitedWcSum d % 65536 ≠ d.working_counter then
          d.working_counter_changes + 1
         else d.working_counter_changes) := by
    rcases hd : d.pairs with _ | ⟨p0, rest⟩
    · have hvis : visitedWcSum d = 0 := by
        unfold visitedWcSum
        rw [hd]
      unfold ec_domain_process_core
      rw [hd, hvis]
      dsimp only
      split
      · exact ⟨rfl, rfl⟩
      · rename_i hcond
        exact ⟨by show d.working_counter = 0 % 65536; omega, rfl⟩
    · rw [hd] at hc hb
      have hinv := processFold_char (p0 :: rest) a0 hc d.fmmu_configs
        { done := [], cur := p0, rest := rest,
          sum := ec_datagram_pair_process p0,
          pairWc := ec_datagram_pair_process p0, overrun := false } 0
        (by simp [shapes]) rfl
        (by simp [ec_datagram_pair_process])
        rfl rfl
        (by simp)
        hb hsorted
      have hvis : visitedWcSum d =
          (((p0 :: rest).take
            (lastInputPairIdx (p0 :: rest) d.fmmu_configs 0 + 1)).map
              fun p => p.aggWc).sum := by
        unfold visitedWcSum
        rw [hd]
      unfold ec_domain_process_core
      rw [hd, hvis]
      dsimp only
      split
      · rename_i hcond
        refine ⟨by rw [← hinv.2.2], ?_⟩
        rw [← hinv.2.2, if_pos hcond]
      · rename_i hcond
        rw [not_ne_iff] at hcond
        refine ⟨?_, ?_⟩
        · rw [← hinv.2.2, ← hcond]
        · rw [← hinv.2.2, ← hcond]
          rw [if_neg (by omega)]
  refine ⟨hwc.1, hwc.2, ?_⟩
  intro jiffies hz
  unfold ecrt_domain_process
  dsimp only
  split
  · exact hwc.1
  · exact hwc.1
/-- Witness for process_wc_visited_sum at a concrete input. -/
theorem process_wc_visited_sum_witness :
    (ec_domain_process_core inputTailDomain).domain.working_counter =
      visitedWcSum inputTailDomain % 65536 :=
  (process_wc_visited_sum inputTailDomain 0 (by decide) (by decide)
    (by decide) (by decide)).1

/-! ## C8: abort of a dequeued request under the ACK_ERR flag -/
/-- C8 (code bug, FoE path): dequeueing an FoE request while the slave's
AL-state carries ACK_ERR marks the request FAILURE, but wakes the SDO queue
instead of the FoE queue and leaves the FSM in ready instead of
transitioning to idle — unlike the SDO, register and SoE paths, and against
the spec's uniform abort behavior. -/
theorem foe_ack_err_abort_wakes_sdo_queue :
    (ec_fsm_slave_exec (ec_fsm_slave_ready (ec_fsm_slave_init ackErrFoeSlave))
        quietEnv).fsm.state = SlaveFsmState.ready ∧
    (ec_fsm_slave_exec (ec_fsm_slave_ready (ec_fsm_slave_init ackErrFoeSlave))
        quietEnv).wakes = [QueueId.sdoQueue] ∧
    (ec_fsm_slave_exec (ec_fsm_slave_ready (ec_fsm_slave_init ackErrFoeSlave))
        quietEnv).req_results =
      [(QueueId.foeQueue, 7, ReqState.failure)] ∧
    (ec_fsm_slave_exec (ec_fsm_slave_ready (ec_fsm_slave_init ackErrFoeSlave))
        quietEnv).fsm.foe_request = none ∧
    (ec_fsm_slave_exec (ec_fsm_slave_ready (ec_fsm_slave_init ackErrFoeSlave))
        quietEnv).slave.foe_requests = [] := by
  refine ⟨rfl, rfl, rfl, rfl, rfl⟩
/-- For contrast with the FoE path: the SDO abort path under the same flag
wakes the SDO queue and does transition to idle, as the spec describes for
every kind. -/
theorem sdo_ack_err_abort_goes_idle :
    (ec_fsm_slave_exec (ec_fsm_slave_ready (ec_fsm_slave_init ackErrSdoSlave))
        quietEnv).fsm.state = SlaveFsmState.idle ∧
    (ec_fsm_slave_exec (ec_fsm_slave_ready (ec_fsm_slave_init ackErrSdoSlave))
        quietEnv).wakes = [QueueId.sdoQueue] ∧
    (ec_fsm_slave_exec (ec_fsm_slave_ready (ec_fsm_slave_init ackErrSdoSlave))
        quietEnv).req_results =
      [(QueueId.sdoQueue, 9, ReqState.failure)] := by
  refine ⟨rfl, rfl, rfl⟩
/-- Counterexample to C9 as stated: run one register request to completion.
After the completing step the FSM is back in ready, but reg_request still
holds the (now successful) request — the reference is non-null outside the
reg_request state, so the claimed exact correspondence fails. -/
theorem reg_request_reference_stale_in_ready :
    (ec_fsm_slave_exec
        (wireStamp
          (ec_fsm_slave_exec (ec_fsm_slave_ready (ec_fsm_slave_init regSlave))
            quietEnv)
          DatagramState.received 1 [5])
        quietEnv).fsm.state = SlaveFsmState.ready ∧
    (ec_fsm_slave_exec
        (wireStamp
          (ec_fsm_slave_exec (ec_fsm_slave_ready (ec_fsm_slave_init regSlave))
            quietEnv)
          DatagramState.received 1 [5])
        quietEnv).fsm.reg_request =
      some { id := 3, rstate := ReqState.success, dir := EcDir.input,
             address := 2304, transfer_size := 1, rdata := [5] } := by
  refine ⟨rfl, rfl⟩

/-! ## C9: the request-reference invariant -/
/-- Clear references in ready or idle satisfy the invariant. -/
theorem inv_of_clear (f : EcFsmSlave) (h : RefsClear f)
    (hs : f.state = SlaveFsmState.ready ∨ f.state = SlaveFsmState.idle) :
    FsmInv f := by
  obtain ⟨h1, h2, h3⟩ := h
  rcases hs with hs | hs <;> simp [FsmInv, h1, h2, h3, hs]
/-- The SDO dequeue action preserves the invariant; when it does not start a
request, the references stay clear and the state stays in ready or idle. -/
theorem process_sdo_inv (w : FsmWorld) (hclear : RefsClear w.fsm)
    (hs : w.fsm.state = SlaveFsmState.ready ∨ w.fsm.state = SlaveFsmState.idle) :
    FsmInv (ec_fsm_slave_action_process_sdo w).1.fsm ∧
    ((ec_fsm_slave_action_process_sdo w).2 = false →
      RefsClear (ec_fsm_slave_action_process_sdo w).1.fsm ∧
      ((ec_fsm_slave_action_process_sdo w).1.fsm.state = SlaveFsmState.ready ∨
       (ec_fsm_slave_action_process_sdo w).1.fsm.state = SlaveFsmState.idle)) := by
  obtain ⟨h1, h2, h3⟩ := hclear
  unfold ec_fsm_slave_action_process_sdo
  rcases hq : w.slave.sdo_requests with _ | ⟨r, rest⟩
  · exact ⟨inv_of_clear _ ⟨h1, h2, h3⟩ hs, fun _ => ⟨⟨h1, h2, h3⟩, hs⟩⟩
  · dsimp only
    split
    · refine ⟨inv_of_clear _ ⟨rfl, h2, h3⟩ (Or.inr rfl), ?_⟩
      exact fun _ => ⟨⟨rfl, h2, h3⟩, Or.inr rfl⟩
    · split
      · refine ⟨inv_of_clear _ ⟨rfl, h2, h3⟩ (Or.inr rfl), ?_⟩
        exact fun _ => ⟨⟨rfl, h2, h3⟩, Or.inr rfl⟩
      · refine ⟨?_, by intro hcontra; cases hcontra⟩
        simp [FsmInv, h2, h3]
/-- The register dequeue action preserves the invariant; when it does not
start or abort a request, the references stay clear and the state stays in
ready or idle. -/
theorem process_reg_inv (w : FsmWorld) (hclear : RefsClear w.fsm)
    (hs : w.fsm.state = SlaveFsmState.ready ∨ w.fsm.state = SlaveFsmState.idle) :
    FsmInv (ec_fsm_slave_action_process_reg w).1.fsm ∧
    ((ec_fsm_slave_action_process_reg w).2 = false →
      RefsClear (ec_fsm_slave_action_process_reg w).1.fsm ∧
      ((ec_fsm_slave_action_process_reg w).1.fsm.state = SlaveFsmState.ready ∨
       (ec_fsm_slave_action_process_reg w).1.fsm.state = SlaveFsmState.idle)) := by
  obtain ⟨h1, h2, h3⟩ := hclear
  have hpickfsm : ∀ v : FsmWorld, (regPick v).2.fsm = v.fsm := by
    intro v
    unfold regPick
    split
    · rfl
    · split <;> rfl
  unfold ec_fsm_slave_action_process_reg
  dsimp only
  rcases hpick : regPick { w with fsm := { w.fsm with reg_request := none } }
    with ⟨o, w1⟩
  have hw1 : w1.fsm = { w.fsm with reg_request := none } := by
    have hh := hpickfsm { w with fsm := { w.fsm with reg_request := none } }
    rw [hpick] at hh
    exact hh
  cases o with
  | none =>
      dsimp only
      constructor
      · refine inv_of_clear _ ?_ ?_ <;> rw [hw1]
        · exact ⟨h1, h2, h3⟩
        · exact hs
      · intro _
        constructor
        · rw [hw1]
          exact ⟨h1, h2, h3⟩
        · rw [hw1]
          exact hs
  | some r =>
      dsimp only
      split
      · refine ⟨?_, by intro hcontra; cases hcontra⟩
        simp only [FsmInv, hw1]
        simp [h1, h2, h3]
      · refine ⟨?_, by intro hcontra; cases hcontra⟩
        simp only [FsmInv, hw1]
        simp [h1, h2, h3]
/-- The FoE dequeue action preserves the invariant; when it does not start a
request, the references stay clear and the state stays in ready or idle
(the ACK_ERR abort leaves the state untouched). -/
theorem process_foe_inv (w : FsmWorld) (hclear : RefsClear w.fsm)
    (hs : w.fsm.state = SlaveFsmState.ready ∨ w.fsm.state = SlaveFsmState.idle) :
    FsmInv (ec_fsm_slave_action_process_foe w).1.fsm ∧
    ((ec_fsm_slave_action_process_foe w).2 = false →
      RefsClear (ec_fsm_slave_action_process_foe w).1.fsm ∧
      ((ec_fsm_slave_action_process_foe w).1.fsm.state = SlaveFsmState.ready ∨
       (ec_fsm_slave_action_process_foe w).1.fsm.state = SlaveFsmState.idle)) := by
  obtain ⟨h1, h2, h3⟩ := hclear
  unfold ec_fsm_slave_action_process_foe
  rcases hq : w.slave.foe_requests with _ | ⟨r, rest⟩
  · exact ⟨inv_of_clear _ ⟨h1, h2, h3⟩ hs, fun _ => ⟨⟨h1, h2, h3⟩, hs⟩⟩
  · dsimp only
    split
    · exact ⟨inv_of_clear _ ⟨h1, h2, h3⟩ hs, fun _ => ⟨⟨h1, h2, h3⟩, hs⟩⟩
    · refine ⟨?_, by intro hcontra; cases hcontra⟩
      simp [FsmInv, h1, h3]
/-- The SoE dequeue action preserves the invariant; when it does not start a
request, the references stay clear and the state stays in ready or idle. -/
theorem process_soe_inv (w : FsmWorld) (hclear : RefsClear w.fsm)
    (hs : w.fsm.state = SlaveFsmState.ready ∨ w.fsm.state = SlaveFsmState.idle) :
    FsmInv (ec_fsm_slave_action_process_soe w).1.fsm ∧
    ((ec_fsm_slave_action_process_soe w).2 = false →
      RefsClear (ec_fsm_slave_action_process_soe w).1.fsm ∧
      ((ec_fsm_slave_action_process_soe w).1.fsm.state = SlaveFsmState.ready ∨
       (ec_fsm_slave_action_process_soe w).1.fsm.state = SlaveFsmState.idle)) := by
  obtain ⟨h1, h2, h3⟩ := hclear
  unfold ec_fsm_slave_action_process_soe
  rcases hq : w.slave.soe_requests with _ | ⟨r, rest⟩
  · exact ⟨inv_of_clear _ ⟨h1, h2, h3⟩ hs, fun _ => ⟨⟨h1, h2, h3⟩, hs⟩⟩
  · dsimp only
    split
    · refine ⟨inv_of_clear _ ⟨h1, h2, h3⟩ (Or.inr rfl), ?_⟩
      exact fun _ => ⟨⟨h1, h2, h3⟩, Or.inr rfl⟩
    · split
      · refine ⟨inv_of_clear _ ⟨h1, h2, h3⟩ (Or.inr rfl), ?_⟩
        exact fun _ => ⟨⟨h1, h2, h3⟩, Or.inr rfl⟩
      · refine ⟨?_, by intro hcontra; cases hcontra⟩
        simp [FsmInv, h1, h2]
/-- The ready dispatcher preserves the invariant. -/
theorem state_ready_inv (w : FsmWorld) (hinv : FsmInv w.fsm)
    (hst : w.fsm.state = SlaveFsmState.ready) :
    FsmInv (ec_fsm_slave_state_ready w).fsm := by
  have hclear : RefsClear w.fsm := by
    obtain ⟨h1, h2, h3, _⟩ := hinv
    refine ⟨?_, ?_, ?_⟩ <;>
      [skip; skip; skip] <;>
      [ (rcases ho : w.fsm.sdo_request with _ | r
         · rfl
         · exact absurd (h1.mp (by rw [ho]; rfl)) (by rw [hst]; intro hcon; cases hcon));
        (rcases ho : w.fsm.foe_request with _ | r
         · rfl
         · exact absurd (h2.mp (by rw [ho]; rfl)) (by rw [hst]; intro hcon; cases hcon));
        (rcases ho : w.fsm.soe_request with _ | r
         · rfl
         · exact absurd (h3.mp (by rw [ho]; rfl)) (by rw [hst]; intro hcon; cases hcon)) ]
  unfold ec_fsm_slave_state_ready
  have hsdo := process_sdo_inv w hclear (Or.inl hst)
  rcases hb1 : ec_fsm_slave_action_process_sdo w with ⟨w1, b1⟩
  rw [hb1] at hsdo
  cases b1 with
  | true => exact hsdo.1
  | false =>
      obtain ⟨hc1, hs1⟩ := hsdo.2 rfl
      dsimp only
      have hreg := process_reg_inv w1 hc1 hs1
      rcases hb2 : ec_fsm_slave_action_process_reg w1 with ⟨w2, b2⟩
      rw [hb2] at hreg
      cases b2 with
      | true => exact hreg.1
      | false =>
          obtain ⟨hc2, hs2⟩ := hreg.2 rfl
          dsimp only
          have hfoe := process_foe_inv w2 hc2 hs2
          rcases hb3 : ec_fsm_slave_action_process_foe w2 with ⟨w3, b3⟩
          rw [hb3] at hfoe
          cases b3 with
          | true => exact hfoe.1
          | false =>
              obtain ⟨hc3, hs3⟩ := hfoe.2 rfl
              dsimp only
              exact (process_soe_inv w3 hc3 hs3).1
/-- The SDO transfer state preserves the invariant. -/
theorem state_sdo_request_inv (w : FsmWorld) (env : FsmEnv)
    (hinv : FsmInv w.fsm) (hst : w.fsm.state = SlaveFsmState.sdo_request) :
    FsmInv (ec_fsm_slave_state_sdo_request w env).fsm := by
  obtain ⟨h1, h2, h3, h4⟩ := hinv
  have hfoe : w.fsm.foe_request = none := by
    rcases hfo : w.fsm.foe_request with _ | q
    · rfl
    · exfalso
      have hh := h2.mp (by rw [hfo]; rfl)
      rw [hst] at hh
      cases hh
  have hsoe : w.fsm.soe_request = none := by
    rcases hso : w.fsm.soe_request with _ | q
    · rfl
    · exfalso
      have hh := h3.mp (by rw [hso]; rfl)
      rw [hst] at hh
      cases hh
  rcases ho : w.fsm.sdo_request with _ | r
  · exfalso
    have hh := h1.mpr hst
    rw [ho] at hh
    exact absurd hh (by decide)
  · unfold ec_fsm_slave_state_sdo_request
    rw [ho]
    dsimp only
    split
    · exact ⟨h1, h2, h3, h4⟩
    · split <;>
        exact ⟨by simp, by simp [hfoe], by simp [hsoe], by intro hcon; cases hcon⟩
/-- The FoE transfer state preserves the invariant. -/
theorem state_foe_request_inv (w : FsmWorld) (env : FsmEnv)
    (hinv : FsmInv w.fsm) (hst : w.fsm.state = SlaveFsmState.foe_request) :
    FsmInv (ec_fsm_slave_state_foe_request w env).fsm := by
  obtain ⟨h1, h2, h3, h4⟩ := hinv
  have hsdo : w.fsm.sdo_request = none := by
    rcases hfo : w.fsm.sdo_request with _ | q
    · rfl
    · exfalso
      have hh := h1.mp (by rw [hfo]; rfl)
      rw [hst] at hh
      cases hh
  have hsoe : w.fsm.soe_request = none := by
    rcases hso : w.fsm.soe_request with _ | q
    · rfl
    · exfalso
      have hh := h3.mp (by rw [hso]; rfl)
      rw [hst] at hh
      cases hh
  rcases ho : w.fsm.foe_request with _ | r
  · exfalso
    have hh := h2.mpr hst
    rw [ho] at hh
    exact absurd hh (by decide)
  · unfold ec_fsm_slave_state_foe_request
    rw [ho]
    dsimp only
    split
    · exact ⟨h1, h2, h3, h4⟩
    · split <;>
        exact ⟨by simp [hsdo], by simp, by simp [hsoe], by intro hcon; cases hcon⟩
/-- The SoE transfer state preserves the invariant. -/
theorem state_soe_request_inv (w : FsmWorld) (env : FsmEnv)
    (hinv : FsmInv w.fsm) (hst : w.fsm.state = SlaveFsmState.soe_request) :
    FsmInv (ec_fsm_slave_state_soe_request w env).fsm := by
  obtain ⟨h1, h2, h3, h4⟩ := hinv
  have hsdo : w.fsm.sdo_request = none := by
    rcases hfo : w.fsm.sdo_request with _ | q
    · rfl
    · exfalso
      have hh := h1.mp (by rw [hfo]; rfl)
      rw [hst] at hh
      cases hh
  have hfoe : w.fsm.foe_request = none := by
    rcases hfo : w.fsm.foe_request with _ | q
    · rfl
    · exfalso
      have hh := h2.mp (by rw [hfo]; rfl)
      rw [hst] at hh
      cases hh
  rcases ho : w.fsm.soe_request with _ | r
  · exfalso
    have hh := h3.mpr hst
    rw [ho] at hh
    exact absurd hh (by decide)
  · unfold ec_fsm_slave_state_soe_request
    rw [ho]
    dsimp only
    split
    · exact ⟨h1, h2, h3, h4⟩
    · split <;>
        exact ⟨by simp [hsdo], by simp [hfoe], by simp, by intro hcon; cases hcon⟩
/-- The register transfer state preserves the invariant (the reference is
left non-null on completion, which the amended invariant permits). -/
theorem state_reg_request_inv (w : FsmWorld)
    (hinv : FsmInv w.fsm) (hst : w.fsm.state = SlaveFsmState.reg_request) :
    FsmInv (ec_fsm_slave_state_reg_request w).fsm := by
  obtain ⟨h1, h2, h3, h4⟩ := hinv
  have hsdo : w.fsm.sdo_request = none := by
    rcases hfo : w.fsm.sdo_request with _ | q
    · rfl
    · exfalso
      have hh := h1.mp (by rw [hfo]; rfl)
      rw [hst] at hh
      cases hh
  have hfoe : w.fsm.foe_request = none := by
    rcases hfo : w.fsm.foe_request with _ | q
    · rfl
    · exfalso
      have hh := h2.mp (by rw [hfo]; rfl)
      rw [hst] at hh
      cases hh
  have hsoe : w.fsm.soe_request = none := by
    rcases hso : w.fsm.soe_request with _ | q
    · rfl
    · exfalso
      have hh := h3.mp (by rw [hso]; rfl)
      rw [hst] at hh
      cases hh
  unfold ec_fsm_slave_state_reg_request
  rcases ho : w.fsm.reg_request with _ | r
  · dsimp only
    exact ⟨by simp [hsdo], by simp [hfoe], by simp [hsoe],
      by intro hcon; cases hcon⟩
  · dsimp only
    split
    · exact ⟨by simp [hsdo], by simp [hfoe], by simp [hsoe],
        by intro hcon; cases hcon⟩
    · split <;>
        exact ⟨by simp [hsdo], by simp [hfoe], by simp [hsoe],
          by intro hcon; cases hcon⟩
/-- C9 (amended): from initialisation on, through every ready() lift, every
wire stamp and every exec() step, the request FSM maintains: the SDO, FoE
and SoE references are non-null exactly when the FSM is in the matching
request state (hence at most one of them is ever non-null), and in the
reg_request state the register reference is non-null.  The register
reference may remain non-null (stale) in ready or idle after a register
request finishes — the exact claimed correspondence fails for it: see
reg_request_reference_stale_in_ready. -/
theorem slave_fsm_reference_invariant :
    (∀ slave, FsmInv (ec_fsm_slave_init slave).fsm) ∧
    (∀ w, FsmInv w.fsm → FsmInv (ec_fsm_slave_ready w).fsm) ∧
    (∀ w dstate wc data, (wireStamp w dstate wc data).fsm = w.fsm) ∧
    (∀ w env, FsmInv w.fsm → FsmInv (ec_fsm_slave_exec w env).fsm) ∧
    (∀ f, FsmInv f →
      (if f.sdo_request.isSome then 1 else 0) +
        (if f.foe_request.isSome then 1 else 0) +
        (if f.soe_request.isSome then 1 else 0) ≤ 1) := by
  refine ⟨?_, ?_, ?_, ?_, ?_⟩
  · intro slave
    exact ⟨by simp [ec_fsm_slave_init], by simp [ec_fsm_slave_init],
      by simp [ec_fsm_slave_init], by intro hcon; cases hcon⟩
  · intro w hinv
    unfold ec_fsm_slave_ready
    split
    · rename_i hidle
      obtain ⟨h1, h2, h3, h4⟩ := hinv
      have hsdo : w.fsm.sdo_request = none := by
        rcases hfo : w.fsm.sdo_request with _ | q
        · rfl
        · exfalso
          have hh := h1.mp (by rw [hfo]; rfl)
          rw [hidle] at hh
          cases hh
      have hfoe : w.fsm.foe_request = none := by
        rcases hfo : w.fsm.foe_request with _ | q
        · rfl
        · exfalso
          have hh := h2.mp (by rw [hfo]; rfl)
          rw [hidle] at hh
          cases hh
      have hsoe : w.fsm.soe_request = none := by
        rcases hso : w.fsm.soe_request with _ | q
        · rfl
        · exfalso
          have hh := h3.mp (by rw [hso]; rfl)
          rw [hidle] at hh
          cases hh
      exact ⟨by simp [hsdo], by simp [hfoe], by simp [hsoe],
        by intro hcon; cases hcon⟩
    · exact hinv
  · intro w dstate wc data
    rfl
  · intro w env hinv
    unfold ec_fsm_slave_exec
    split
    · exact hinv
    · rcases hst : w.fsm.state with _ | _ | _ | _ | _ | _
      all_goals dsimp only
      · exact hinv
      · exact state_ready_inv w hinv hst
      · exact state_sdo_request_inv w env hinv hst
      · exact state_reg_request_inv w hinv hst
      · exact state_foe_request_inv w env hinv hst
      · exact state_soe_request_inv w env hinv hst
  · intro f hinv
    obtain ⟨h1, h2, h3, _⟩ := hinv
    rcases hst : f.state with _ | _ | _ | _ | _ | _ <;>
      rw [hst] at h1 h2 h3 <;>
      simp_all
/-- Witness for slave_fsm_reference_invariant: the invariant is preserved
across a concrete exec step. -/
theorem slave_fsm_reference_invariant_witness :
    FsmInv (ec_fsm_slave_exec (ec_fsm_slave_ready (ec_fsm_slave_init regSlave))
      quietEnv).fsm :=
  slave_fsm_reference_invariant.2.2.2.1
    (ec_fsm_slave_ready (ec_fsm_slave_init regSlave)) quietEnv
    (by refine ⟨?_, ?_, ?_, ?_⟩ <;> decide)
